import Mathlib

/-!
# Verification of the muffin-os physical-memory / slab / ELF core

Shallow embedding of the subsystems covered by the specification:

* `kernel_physical_memory` (`PhysicalMemoryManager`, `MemoryRegion`,
  from `src/kernel/crates/kernel_physical_memory/src/lib.rs`);
* the stage-1 bump allocator (`src/kernel/src/mem/phys.rs`);
* `kernel_slab` (`src/kernel/crates/kernel_slab`);
* the ELF parser and loader (`src/kernel/crates/kernel_elfloader`).

Machine integers (`u64`, `usize`) are modelled as `Nat`; wraparound is made
explicit (mod `2 ^ 64`) at the one place the source relies on it.  Frame
states and indices are translated verbatim from the Rust source; the
`MemoryRegion` helper type lives in `region.rs`, which is not part of the
sources provided, so its four pure indexing operations are modelled from the
specification (see the doc comments below).
-/

namespace Muffin

/-- `FrameState` — tri-state per 4KiB unit, from `kernel_physical_memory/src/lib.rs`. -/
inductive FrameState where
  | Unusable : FrameState
  | Allocated : FrameState
  | Free : FrameState
deriving DecidableEq, Repr

/-- Modelled from the spec: `MemoryRegion` (the file `region.rs` of
`kernel_physical_memory` is not among the provided sources).  Per §4.1 of the
spec it is a fixed `base_address` (4KiB-aligned `u64`) together with an
ordered sequence of per-frame states. -/
structure MemoryRegion where
  base : Nat
  frames : List FrameState
deriving DecidableEq, Repr

/-- Modelled from the spec: `MemoryRegion::frame_index(address)` converts an
absolute physical address to a local slot index, `None` if the address lies
outside `[base, base + len*4096)` or is not frame-aligned relative to base. -/
def MemoryRegion.frame_index (r : MemoryRegion) (addr : Nat) : Option Nat :=
  if r.base ≤ addr ∧ (addr - r.base) % 4096 = 0 ∧ (addr - r.base) / 4096 < r.frames.length
  then some ((addr - r.base) / 4096) else none

/-- Modelled from the spec: `MemoryRegion::frame_address(index)`, the inverse
of `frame_index`; `None` when the index is out of range. -/
def MemoryRegion.frame_address (r : MemoryRegion) (idx : Nat) : Option Nat :=
  if idx < r.frames.length then some (r.base + idx * 4096) else none

/-- A `(region_idx, frame_idx)` pair (`RegionFrameIndex` in the source). -/
abbrev Pos := Nat × Nat

/-- Strict lexicographic order on `RegionFrameIndex` pairs, as used by
`deallocate_frame` ("is_before_first_free"). -/
def posLt (p q : Pos) : Prop := p.1 < q.1 ∨ (p.1 = q.1 ∧ p.2 < q.2)

instance (p q : Pos) : Decidable (posLt p q) := by unfold posLt; infer_instance

/-- `PhysicalMemoryManager` state: the ordered region list and the cached
`first_free` cursor. -/
structure PMM where
  regions : List MemoryRegion
  firstFree : Option Pos
deriving DecidableEq, Repr

/-- `frames[..].iter().position(|&s| s == FrameState::Free)`. -/
def posFree : List FrameState → Option Nat
  | [] => none
  | f :: rest => if f = .Free then some 0 else (posFree rest).map (· + 1)

/-- `PhysicalMemoryManager::find_first_free_internal`: scan the regions in
order for the first `Free` frame. -/
def findFirstFree : List MemoryRegion → Option Pos
  | [] => none
  | r :: rest =>
    match posFree r.frames with
    | some i => some (0, i)
    | none => (findFirstFree rest).map (fun p => (p.1 + 1, p.2))

/-- `PhysicalMemoryManager::new`: store the regions and establish the
`first_free` cache by a full scan. -/
def PMM.new (regions : List MemoryRegion) : PMM :=
  { regions := regions, firstFree := findFirstFree regions }

/-- The frame at position `p` exists and is `Free`. -/
def IsFreeAt (regions : List MemoryRegion) (p : Pos) : Prop :=
  ∃ r, regions.get? p.1 = some r ∧ r.frames.get? p.2 = some FrameState.Free

theorem IsFreeAt_iff_bind {regions : List MemoryRegion} {p : Pos} :
    IsFreeAt regions p ↔
      (regions.get? p.1).bind (fun r => r.frames.get? p.2) = some FrameState.Free := by
  unfold IsFreeAt
  cases h : regions.get? p.1 with
  | none => simp [h]
  | some r => simp [h]

instance (regions : List MemoryRegion) (p : Pos) : Decidable (IsFreeAt regions p) :=
  decidable_of_iff _ IsFreeAt_iff_bind.symm

theorem posLt_trans {p q s : Pos} (h₁ : posLt p q) (h₂ : posLt q s) : posLt p s := by
  rcases h₁ with h₁ | ⟨e₁, h₁⟩ <;> rcases h₂ with h₂ | ⟨e₂, h₂⟩
  · exact Or.inl (h₁.trans h₂)
  · exact Or.inl (e₂ ▸ h₁)
  · exact Or.inl (e₁ ▸ h₂)
  · exact Or.inr ⟨e₁.trans e₂, h₁.trans h₂⟩

theorem posLt_trichotomy (p q : Pos) : posLt p q ∨ p = q ∨ posLt q p := by
  rcases Nat.lt_trichotomy p.1 q.1 with h | h | h
  · exact Or.inl (Or.inl h)
  · rcases Nat.lt_trichotomy p.2 q.2 with h2 | h2 | h2
    · exact Or.inl (Or.inr ⟨h, h2⟩)
    · exact Or.inr (Or.inl (Prod.ext h h2))
    · exact Or.inr (Or.inr (Or.inr ⟨h.symm, h2⟩))
  · exact Or.inr (Or.inr (Or.inl h))

/-! ## Characterization of the scans -/

theorem posFree_some_iff {l : List FrameState} {i : Nat} :
    posFree l = some i ↔
      l.get? i = some FrameState.Free ∧ ∀ j, j < i → l.get? j ≠ some FrameState.Free := by
  induction l generalizing i with
  | nil => simp [posFree]
  | cons f rest ih =>
    by_cases hf : f = FrameState.Free
    · subst hf
      simp only [posFree, if_pos rfl]
      constructor
      · rintro h
        cases h
        simp
      · rintro ⟨hfree, hmin⟩
        cases i with
        | zero => rfl
        | succ i => exact absurd rfl (hmin 0 (Nat.succ_pos _))
    · simp only [posFree, if_neg hf, Option.map_eq_some']
      constructor
      · rintro ⟨i', hi', rfl⟩
        obtain ⟨hfree, hmin⟩ := ih.mp hi'
        refine ⟨by simpa using hfree, ?_⟩
        intro j hj
        cases j with
        | zero => simpa using hf
        | succ j => simpa using hmin j (Nat.lt_of_succ_lt_succ hj)
      · rintro ⟨hfree, hmin⟩
        cases i with
        | zero => simp at hfree; exact absurd hfree hf
        | succ i =>
          refine ⟨i, ih.mpr ⟨by simpa using hfree, ?_⟩, rfl⟩
          intro j hj
          simpa using hmin (j + 1) (Nat.succ_lt_succ hj)

theorem posFree_none_iff {l : List FrameState} :
    posFree l = none ↔ ∀ j, l.get? j ≠ some FrameState.Free := by
  induction l with
  | nil => simp [posFree]
  | cons f rest ih =>
    by_cases hf : f = FrameState.Free
    · subst hf
      simp only [posFree, if_pos rfl]
      constructor
      · intro h; cases h
      · intro h
        exact absurd (by simp : (FrameState.Free :: rest).get? 0 = some FrameState.Free) (h 0)
    · simp only [posFree, if_neg hf, Option.map_eq_none']
      rw [ih]
      constructor
      · intro h j
        cases j with
        | zero => simpa using hf
        | succ j => simpa using h j
      · intro h j
        simpa using h (j + 1)

theorem IsFreeAt_cons_zero {r : MemoryRegion} {rest : List MemoryRegion} {j : Nat} :
    IsFreeAt (r :: rest) (0, j) ↔ r.frames.get? j = some FrameState.Free := by
  simp [IsFreeAt]

theorem IsFreeAt_cons_succ {r : MemoryRegion} {rest : List MemoryRegion} {i j : Nat} :
    IsFreeAt (r :: rest) (i + 1, j) ↔ IsFreeAt rest (i, j) := by
  simp [IsFreeAt]

theorem findFirstFree_some_iff {regions : List MemoryRegion} {p : Pos} :
    findFirstFree regions = some p ↔
      IsFreeAt regions p ∧ ∀ q, posLt q p → ¬IsFreeAt regions q := by
  induction regions generalizing p with
  | nil => simp [findFirstFree, IsFreeAt]
  | cons r rest ih =>
    rcases hpf : posFree r.frames with _ | i
    · simp only [findFirstFree, hpf, Option.map_eq_some']
      have hnone := posFree_none_iff.mp hpf
      constructor
      · rintro ⟨⟨i', j'⟩, hp', rfl⟩
        obtain ⟨hfree, hmin⟩ := ih.mp hp'
        refine ⟨IsFreeAt_cons_succ.mpr hfree, ?_⟩
        rintro ⟨qi, qj⟩ hq
        cases qi with
        | zero => exact fun hc => hnone qj (IsFreeAt_cons_zero.mp hc)
        | succ qi =>
          intro hc
          refine hmin (qi, qj) ?_ (IsFreeAt_cons_succ.mp hc)
          rcases hq with hq | ⟨hq1, hq2⟩
          · exact Or.inl (Nat.lt_of_succ_lt_succ hq)
          · exact Or.inr ⟨Nat.succ_injective hq1, hq2⟩
      · rintro ⟨hfree, hmin⟩
        obtain ⟨pi, pj⟩ := p
        cases pi with
        | zero => exact absurd (IsFreeAt_cons_zero.mp hfree) (hnone pj)
        | succ pi =>
          refine ⟨(pi, pj), ih.mpr ⟨IsFreeAt_cons_succ.mp hfree, ?_⟩, rfl⟩
          rintro ⟨qi, qj⟩ hq hc
          refine hmin (qi + 1, qj) ?_ (IsFreeAt_cons_succ.mpr hc)
          rcases hq with hq | ⟨hq1, hq2⟩
          · exact Or.inl (Nat.succ_lt_succ hq)
          · exact Or.inr ⟨by omega, hq2⟩
    · simp only [findFirstFree, hpf]
      obtain ⟨hfree, hmin⟩ := posFree_some_iff.mp hpf
      constructor
      · rintro h
        cases h
        refine ⟨IsFreeAt_cons_zero.mpr hfree, ?_⟩
        rintro ⟨qi, qj⟩ hq hc
        rcases hq with hq | ⟨hq1, hq2⟩
        · exact absurd hq (Nat.not_lt_zero _)
        · cases qi with
          | zero => exact hmin qj hq2 (IsFreeAt_cons_zero.mp hc)
          | succ qi => exact absurd hq1 (Nat.succ_ne_zero _)
      · rintro ⟨hfree', hmin'⟩
        obtain ⟨pi, pj⟩ := p
        cases pi with
        | zero =>
          have : i = pj := by
            rcases Nat.lt_trichotomy i pj with h | h | h
            · exact absurd (IsFreeAt_cons_zero.mpr hfree) (hmin' (0, i) (Or.inr ⟨rfl, h⟩))
            · exact h
            · exact absurd (IsFreeAt_cons_zero.mp hfree') (hmin pj h)
          simp [this]
        | succ pi =>
          exact absurd (IsFreeAt_cons_zero.mpr hfree)
            (hmin' (0, i) (Or.inl (Nat.succ_pos _)))

theorem findFirstFree_none_iff {regions : List MemoryRegion} :
    findFirstFree regions = none ↔ ∀ p, ¬IsFreeAt regions p := by
  induction regions with
  | nil => simp [findFirstFree, IsFreeAt]
  | cons r rest ih =>
    rcases hpf : posFree r.frames with _ | i
    · simp only [findFirstFree, hpf, Option.map_eq_none']
      rw [ih]
      have hnone := posFree_none_iff.mp hpf
      constructor
      · rintro h ⟨pi, pj⟩
        cases pi with
        | zero => exact fun hc => hnone pj (IsFreeAt_cons_zero.mp hc)
        | succ pi => exact fun hc => h (pi, pj) (IsFreeAt_cons_succ.mp hc)
      · rintro h ⟨pi, pj⟩ hc
        exact h (pi + 1, pj) (IsFreeAt_cons_succ.mpr hc)
    · simp only [findFirstFree, hpf]
      constructor
      · intro h; cases h
      · intro h
        exact absurd (IsFreeAt_cons_zero.mpr (posFree_some_iff.mp hpf).1) (h (0, i))

/-! ## `update_first_free` and the allocation path -/

/-- The region search of `update_first_free` lines 106-115: scan the regions
with index `≥ k` (`iter().enumerate().skip(k)`) for the first `Free` frame. -/
def searchFrom (regions : List MemoryRegion) (k : Nat) : Option Pos :=
  (findFirstFree (regions.drop k)).map (fun p => (p.1 + k, p.2))

/-- `PhysicalMemoryManager::update_first_free(start_region, start_index)`:
look for a `Free` frame in region `start_region` at offset `≥ start_index`,
then in the subsequent regions, and return the new cache value. -/
def updateFirstFree (regions : List MemoryRegion) (startRegion startIndex : Nat) : Option Pos :=
  match regions.get? startRegion with
  | some r =>
    if startIndex < r.frames.length then
      match posFree (r.frames.drop startIndex) with
      | some idx => some (startRegion, startIndex + idx)
      | none => searchFrom regions (startRegion + 1)
    else searchFrom regions (startRegion + 1)
  | none => searchFrom regions (startRegion + 1)

/-- `frames[current_start..current_start + count].iter().all(|&s| s == Free)`
(in-bounds by the loop guard), by recursion on the run length. -/
def allFree (l : List FrameState) (pos : Nat) : Nat → Bool
  | 0 => true
  | c + 1 => decide (l.get? pos = some FrameState.Free) && allFree l (pos + 1) c

/-- `frames_mut()[start..=start+count-1].fill(FrameState::Allocated)`:
overwrite the `count` slots starting at `start`. -/
def setRange : List FrameState → Nat → Nat → List FrameState
  | [], _, _ => []
  | x :: xs, 0, 0 => x :: xs
  | _ :: xs, 0, c + 1 => FrameState.Allocated :: setRange xs 0 c
  | x :: xs, s + 1, c => x :: setRange xs s c

/-- Round `search_start` up to the next multiple of `spf` (lines 145-152). -/
def alignUp (s spf : Nat) : Nat :=
  if s % spf = 0 then s else s + (spf - s % spf)

/-- The candidate scan of the `while` loop (lines 155-190): starting at
`start` (already aligned), try positions `start, start + spf, ...` while
`pos + count ≤ frames.len()`, and return the first position whose `count`
consecutive frames are all `Free`. -/
def findRun (frames : List FrameState) (spf count start : Nat) : Option Nat :=
  if start + count ≤ frames.length then
    (((List.range ((frames.length - (start + count)) / spf + 1)).map
        (fun k => start + k * spf)).find?
      (fun pos => allFree frames pos count))
  else none

/-- Result of `allocate_frames_impl`: the returned `Option` range, or a panic
(`PhysAddr::new` asserts that its argument is below `2^52`). -/
inductive AllocResult where
  | panics : AllocResult
  | fail : AllocResult
  | ok (startAddr endAddr : Nat) : AllocResult
deriving DecidableEq, Repr

/-- `u64::MAX`, used to express the wrapping `current_start + count - 1`. -/
def U64MAX : Nat := 2 ^ 64 - 1

/-- The `u64`/`usize` value of `current_start + small_frame_count - 1`.  In
Rust this wraps to `u64::MAX` exactly when `pos + count = 0` (release-build
semantics; a debug build would abort, which ends the state history just like
the modelled `panics` outcome). -/
def endFrameIdx (pos count : Nat) : Nat :=
  if pos + count = 0 then U64MAX else pos + count - 1

/-- Lines 162-186 of `allocate_frames_impl`: a run of `count` free frames was
found at local index `pos` of region `region_idx`; read the start/end
addresses, mark the run `Allocated`, advance `first_free` when the run starts
at the cached cursor, and convert the addresses to typed frames (where
misalignment aborts the allocation with `None` after the mutation — the
`from_start_address(..).ok()?` pattern). -/
def commitRun (m : PMM) (ff : Pos) (regionIdx spf count pos : Nat) : AllocResult × PMM :=
  match m.regions.get? regionIdx with
  | none => (.panics, m)
  | some r =>
    match r.frame_address pos with
    | none => (.fail, m)
    | some startAddr =>
      let endIdx := endFrameIdx pos count / spf * spf
      match r.frame_address endIdx with
      | none => (.fail, m)
      | some endAddr =>
        let r' : MemoryRegion := { r with frames := setRange r.frames pos count }
        let m₁ : PMM := { m with regions := m.regions.set regionIdx r' }
        let m₂ : PMM :=
          if regionIdx = ff.1 ∧ pos ≤ ff.2 then
            { m₁ with firstFree := updateFirstFree m₁.regions regionIdx (endFrameIdx pos count + 1) }
          else m₁
        let res : AllocResult :=
          if 2 ^ 52 ≤ startAddr then .panics
          else if ¬ (spf * 4096 ∣ startAddr) then .fail
          else if 2 ^ 52 ≤ endAddr then .panics
          else if ¬ (spf * 4096 ∣ endAddr) then .fail
          else .ok startAddr endAddr
        (res, m₂)

/-- The `for region_idx in ff.region_idx..self.regions.len()` loop of
`allocate_frames_impl` (lines 132-191).  The first argument counts the
remaining loop iterations (`regions.len() - region_idx`, maintained in
lockstep with `regionIdx` by the caller) so that the recursion is structural;
when it reaches zero, `region_idx` has reached `regions.len()` and the loop
falls through to `None`. -/
def searchRegions (m : PMM) (ff : Pos) (spf count : Nat) : Nat → Nat → AllocResult × PMM
  | 0, _ => (.fail, m)
  | k + 1, regionIdx =>
    if h : regionIdx < m.regions.length then
      let r := m.regions.get ⟨regionIdx, h⟩
      let searchStart := if regionIdx = ff.1 then ff.2 else 0
      if r.frames.length ≤ searchStart then
        searchRegions m ff spf count k (regionIdx + 1)
      else
        match findRun r.frames spf count (alignUp searchStart spf) with
        | some pos => commitRun m ff regionIdx spf count pos
        | none => searchRegions m ff spf count k (regionIdx + 1)
    else (.fail, m)

/-- `PhysicalMemoryManager::allocate_frames_impl::<S>(n)`, with
`spf = S::SIZE / Size4KiB::SIZE` (1, 512 or 262144) and
`count = n * spf`. -/
def allocateFramesImpl (spf n : Nat) (m : PMM) : AllocResult × PMM :=
  match m.firstFree with
  | none => (.fail, m)
  | some ff => searchRegions m ff spf (n * spf) (m.regions.length - ff.1) ff.1

/-! ## Deallocation -/

/-- `PhysicalMemoryManager::find_frame_location`. -/
def findFrameLocation : List MemoryRegion → Nat → Option Pos
  | [], _ => none
  | r :: rest, addr =>
    match r.frame_index addr with
    | some fi => some (0, fi)
    | none => (findFrameLocation rest addr).map (fun p => (p.1 + 1, p.2))

/-- `PhysicalFrameAllocator<Size4KiB>::deallocate_frame` for the manager
(lines 266-292): flip an `Allocated` frame back to `Free` and pull the
`first_free` cache back when the freed slot is lexicographically earlier. -/
def deallocateFrame4K (m : PMM) (addr : Nat) : Option Nat × PMM :=
  match findFrameLocation m.regions addr with
  | none => (none, m)
  | some loc =>
    match m.regions.get? loc.1 with
    | none => (none, m)
    | some r =>
      if r.frames.get? loc.2 = some FrameState.Allocated then
        let r' : MemoryRegion := { r with frames := r.frames.set loc.2 FrameState.Free }
        let isBefore : Bool :=
          match m.firstFree with
          | some ff => decide (posLt loc ff)
          | none => true
        let ff' := if isBefore then some loc else m.firstFree
        (some addr, { regions := m.regions.set loc.1 r', firstFree := ff' })
      else (none, m)

/-- A `deallocate_frame(..)?` loop over a list of 4KiB addresses (the bodies
of the `Size2MiB`/`Size1GiB` `deallocate_frame` impls): stop at the first
failure, keeping whatever prefix already succeeded. -/
def deallocSeq4K (m : PMM) : List Nat → Option Unit × PMM
  | [] => (some (), m)
  | a :: rest =>
    match deallocateFrame4K m a with
    | (some _, m') => deallocSeq4K m' rest
    | (none, m') => (none, m')

/-- `PhysicalFrameAllocator<Size2MiB>::deallocate_frame`: deallocate the 512
constituent 4KiB frames in ascending order, aborting on the first failure. -/
def deallocateFrame2M (m : PMM) (addr : Nat) : Option Nat × PMM :=
  match deallocSeq4K m ((List.range 512).map (fun i => addr + i * 4096)) with
  | (some _, m') => (some addr, m')
  | (none, m') => (none, m')

/-- A `deallocate_frame::<Size2MiB>(..)?` loop over 2MiB frame addresses. -/
def deallocSeq2M (m : PMM) : List Nat → Option Unit × PMM
  | [] => (some (), m)
  | a :: rest =>
    match deallocateFrame2M m a with
    | (some _, m') => deallocSeq2M m' rest
    | (none, m') => (none, m')

/-- `PhysicalFrameAllocator<Size1GiB>::deallocate_frame`: deallocate the 512
constituent 2MiB frames in ascending order, aborting on the first failure. -/
def deallocateFrame1G (m : PMM) (addr : Nat) : Option Nat × PMM :=
  match deallocSeq2M m ((List.range 512).map (fun i => addr + i * 2097152)) with
  | (some _, m') => (some addr, m')
  | (none, m') => (none, m')

/-- The addresses of an inclusive frame range `start ..= last` stepped by the
page size (`PhysFrameRangeInclusive` iteration). -/
def rangeAddrs (start last step : Nat) : List Nat :=
  if start ≤ last then (List.range ((last - start) / step + 1)).map (fun i => start + i * step)
  else []

/-- The `deallocate_frames(range)` default of `PhysicalFrameAllocator`: a
`deallocate_frame(..)?` fold over the frames of the range (4KiB case). -/
def deallocateFrames4K (m : PMM) (start last : Nat) : PMM :=
  (deallocSeq4K m (rangeAddrs start last 4096)).2

/-- `deallocate_frames(range)` at 2MiB. -/
def deallocateFrames2M (m : PMM) (start last : Nat) : PMM :=
  (deallocSeq2M m (rangeAddrs start last 2097152)).2

/-- A `deallocate_frame::<Size1GiB>(..)?` loop over 1GiB frame addresses. -/
def deallocSeq1G (m : PMM) : List Nat → Option Unit × PMM
  | [] => (some (), m)
  | a :: rest =>
    match deallocateFrame1G m a with
    | (some _, m') => deallocSeq1G m' rest
    | (none, m') => (none, m')

/-- `deallocate_frames(range)` at 1GiB. -/
def deallocateFrames1G (m : PMM) (start last : Nat) : PMM :=
  (deallocSeq1G m (rangeAddrs start last 1073741824)).2

/-! ## Reachable manager states -/

/-- Rust slices hold at most `isize::MAX` bytes, so a region's frame vector
has fewer than `2 ^ 63` entries.  This bound is what rules out `usize`
wraparound inside `allocate_frames_impl`. -/
def WF (m : PMM) : Prop := ∀ r ∈ m.regions, r.frames.length ≤ 2 ^ 63 - 1

/-- All manager states reachable from construction by the public allocation
API: `allocate_frames::<S>(n)` (and hence `allocate_frame`), and
`deallocate_frame::<S>` / `deallocate_frames::<S>` at the three page sizes.
A panicking call has no successor state. -/
inductive Reachable : PMM → Prop where
  | construct (regions : List MemoryRegion)
      (hwf : ∀ r ∈ regions, r.frames.length ≤ 2 ^ 63 - 1) :
      Reachable (PMM.new regions)
  | alloc {m : PMM} (spf n : Nat) {res : AllocResult} {m' : PMM} :
      Reachable m → (spf = 1 ∨ spf = 512 ∨ spf = 262144) →
      allocateFramesImpl spf n m = (res, m') → res ≠ .panics → Reachable m'
  | dealloc4K {m : PMM} (addr : Nat) :
      Reachable m → Reachable (deallocateFrame4K m addr).2
  | dealloc2M {m : PMM} (addr : Nat) :
      Reachable m → Reachable (deallocateFrame2M m addr).2
  | dealloc1G {m : PMM} (addr : Nat) :
      Reachable m → Reachable (deallocateFrame1G m addr).2
  | deallocRange4K {m : PMM} (start last : Nat) :
      Reachable m → Reachable (deallocateFrames4K m start last)
  | deallocRange2M {m : PMM} (start last : Nat) :
      Reachable m → Reachable (deallocateFrames2M m start last)
  | deallocRange1G {m : PMM} (start last : Nat) :
      Reachable m → Reachable (deallocateFrames1G m start last)

/-! ## Helper lemmas about the scans and mutations -/

theorem setRange_length (l : List FrameState) (s c : Nat) :
    (setRange l s c).length = l.length := by
  induction l generalizing s c with
  | nil => rfl
  | cons x xs ih =>
    cases s with
    | zero =>
      cases c with
      | zero => rfl
      | succ c => simpa [setRange] using ih 0 c
    | succ s => simpa [setRange] using ih s c

theorem setRange_get? (l : List FrameState) (s c i : Nat) :
    (setRange l s c).get? i =
      if s ≤ i ∧ i < s + c ∧ i < l.length then some FrameState.Allocated else l.get? i := by
  induction l generalizing s c i with
  | nil => simp [setRange]
  | cons x xs ih =>
    cases s with
    | zero =>
      cases c with
      | zero => simp [setRange]
      | succ c =>
        cases i with
        | zero => simp [setRange]
        | succ i =>
          simp only [setRange, List.get?_cons_succ, ih 0 c i, List.length_cons]
          split <;> split <;> first | rfl | omega
    | succ s =>
      cases i with
      | zero => simp [setRange]
      | succ i =>
        simp only [setRange, List.get?_cons_succ, ih s c i, List.length_cons]
        split <;> split <;> first | rfl | omega

theorem allFree_iff (l : List FrameState) :
    ∀ count pos, allFree l pos count = true ↔
      ∀ k, k < count → l.get? (pos + k) = some FrameState.Free := by
  intro count
  induction count with
  | zero => simp [allFree]
  | succ c ih =>
    intro pos
    simp only [allFree, Bool.and_eq_true, decide_eq_true_eq]
    constructor
    · rintro ⟨h0, hrest⟩ k hk
      cases k with
      | zero => simpa using h0
      | succ k =>
        have := (ih (pos + 1)).mp hrest k (Nat.lt_of_succ_lt_succ hk)
        simpa [Nat.add_assoc, Nat.add_comm 1 k] using this
    · intro h
      refine ⟨?_, (ih (pos + 1)).mpr ?_⟩
      · simpa using h 0 (Nat.succ_pos _)
      · intro k hk
        have := h (k + 1) (Nat.succ_lt_succ hk)
        simpa [Nat.add_assoc, Nat.add_comm 1 k] using this

theorem alignUp_le (s spf : Nat) : s ≤ alignUp s spf := by
  unfold alignUp; split <;> omega

theorem alignUp_dvd (s spf : Nat) (h : 0 < spf) : spf ∣ alignUp s spf := by
  unfold alignUp
  by_cases hm : s % spf = 0
  · rw [if_pos hm]
    exact Nat.dvd_of_mod_eq_zero hm
  · rw [if_neg hm]
    have hlt : s % spf < spf := Nat.mod_lt _ h
    have heq : s + (spf - s % spf) = (s / spf) * spf + spf := by
      have h1 := Nat.div_add_mod s spf
      have h2 : (s / spf) * spf = spf * (s / spf) := Nat.mul_comm _ _
      omega
    rw [heq]
    exact ⟨s / spf + 1, by ring⟩

theorem findRun_facts {frames : List FrameState} {spf count start pos : Nat}
    (h : findRun frames spf count start = some pos) :
    (∃ k, pos = start + k * spf) ∧ pos + count ≤ frames.length ∧
      allFree frames pos count = true := by
  unfold findRun at h
  split at h
  case isFalse => exact absurd h (by simp)
  case isTrue hle =>
    have hmem := List.mem_of_find?_eq_some h
    have hp := List.find?_some h
    simp only [List.mem_map, List.mem_range] at hmem
    obtain ⟨k, hk, rfl⟩ := hmem
    refine ⟨⟨k, rfl⟩, ?_, hp⟩
    have hk' : k ≤ (frames.length - (start + count)) / spf := Nat.lt_succ_iff.mp hk
    have := Nat.mul_le_mul_right spf hk'
    have hdm : (frames.length - (start + count)) / spf * spf ≤ frames.length - (start + count) :=
      Nat.div_mul_le_self _ _
    omega

/-- `posFree` skips a prefix known to contain no `Free` frame. -/
theorem posFree_shift {l : List FrameState} {si : Nat}
    (h : ∀ j, j < si → l.get? j ≠ some FrameState.Free) :
    posFree l = (posFree (l.drop si)).map (· + si) := by
  induction si generalizing l with
  | zero =>
    rw [List.drop_zero]
    cases posFree l <;> simp
  | succ si ih =>
    cases l with
    | nil => simp [posFree]
    | cons x xs =>
      have hx : ¬x = FrameState.Free := by
        intro hc; exact h 0 (Nat.succ_pos _) (by simp [hc])
      have hxs : ∀ j, j < si → xs.get? j ≠ some FrameState.Free := by
        intro j hj
        simpa using h (j + 1) (Nat.succ_lt_succ hj)
      simp only [posFree, if_neg hx, List.drop_succ_cons, ih hxs, Option.map_map]
      cases posFree (xs.drop si) <;> simp [Function.comp, Nat.add_assoc, Nat.add_comm 1 si]

theorem searchFrom_cons_succ (r : MemoryRegion) (rest : List MemoryRegion) (k : Nat) :
    searchFrom (r :: rest) (k + 1) = (searchFrom rest k).map (fun p => (p.1 + 1, p.2)) := by
  simp only [searchFrom, List.drop_succ_cons, Option.map_map]
  cases findFirstFree (rest.drop k) <;> simp [Function.comp, Nat.add_assoc, Nat.add_comm 1 k]

theorem updateFirstFree_cons_succ (r : MemoryRegion) (rest : List MemoryRegion) (sr si : Nat) :
    updateFirstFree (r :: rest) (sr + 1) si =
      (updateFirstFree rest sr si).map (fun p => (p.1 + 1, p.2)) := by
  simp only [updateFirstFree, List.get?_cons_succ]
  cases hget : rest.get? sr with
  | none => simp [searchFrom_cons_succ]
  | some r' =>
    by_cases hlen : si < r'.frames.length
    · simp only [if_pos hlen]
      cases posFree (r'.frames.drop si) <;> simp [searchFrom_cons_succ]
    · simp [if_neg hlen, searchFrom_cons_succ]

/-- When nothing below `(sr, si)` is free, `update_first_free(sr, si)` computes
precisely the global first-free scan. -/
theorem updateFirstFree_eq_findFirstFree {regions : List MemoryRegion} {sr si : Nat}
    (H : ∀ q, posLt q (sr, si) → ¬IsFreeAt regions q) :
    updateFirstFree regions sr si = findFirstFree regions := by
  induction sr generalizing regions with
  | zero =>
    cases regions with
    | nil => simp [updateFirstFree, searchFrom, findFirstFree]
    | cons r rest =>
      have hpref : ∀ j, j < si → r.frames.get? j ≠ some FrameState.Free := by
        intro j hj hc
        exact H (0, j) (Or.inr ⟨rfl, hj⟩) (IsFreeAt_cons_zero.mpr hc)
      have hshift := posFree_shift hpref
      simp only [updateFirstFree, List.get?_cons_zero, findFirstFree]
      by_cases hlen : si < r.frames.length
      · simp only [if_pos hlen]
        cases hpd : posFree (r.frames.drop si) with
        | none => rw [hshift, hpd]; simp [searchFrom_cons_succ, searchFrom]
        | some idx => rw [hshift, hpd]; simp [Nat.add_comm si idx]
      · have hnone : posFree r.frames = none := by
          rw [posFree_none_iff]
          intro j hc
          rcases Nat.lt_or_ge j r.frames.length with hj | hj
          · exact hpref j (by omega) hc
          · rw [List.get?_eq_none.mpr hj] at hc; cases hc
        simp [if_neg hlen, hnone, searchFrom_cons_succ, searchFrom]
  | succ sr ih =>
    cases regions with
    | nil => simp [updateFirstFree, searchFrom, findFirstFree]
    | cons r rest =>
      have hnone : posFree r.frames = none := by
        rw [posFree_none_iff]
        intro j hc
        exact H (0, j) (Or.inl (Nat.succ_pos _)) (IsFreeAt_cons_zero.mpr hc)
      have Hrest : ∀ q, posLt q (sr, si) → ¬IsFreeAt rest q := by
        rintro ⟨qi, qj⟩ hq hc
        refine H (qi + 1, qj) ?_ (IsFreeAt_cons_succ.mpr hc)
        rcases hq with hq | ⟨hq1, hq2⟩
        · exact Or.inl (Nat.succ_lt_succ hq)
        · exact Or.inr ⟨by omega, hq2⟩
      rw [updateFirstFree_cons_succ, ih Hrest]
      simp [findFirstFree, hnone]

/-! ## The first-free cache invariant -/

/-- The cache invariant: the stored `first_free` is what a from-scratch scan
would produce. -/
def FFInv (m : PMM) : Prop := m.firstFree = findFirstFree m.regions

theorem frame_address_some {r : MemoryRegion} {idx a : Nat}
    (h : r.frame_address idx = some a) :
    idx < r.frames.length ∧ a = r.base + idx * 4096 := by
  unfold MemoryRegion.frame_address at h
  split at h
  · exact ⟨by assumption, (Option.some_injective _ h).symm⟩
  · cases h

theorem IsFreeAt_set_ne {regions : List MemoryRegion} {i : Nat} {r' : MemoryRegion} {q : Pos}
    (h : q.1 ≠ i) : IsFreeAt (regions.set i r') q ↔ IsFreeAt regions q := by
  unfold IsFreeAt
  rw [List.get?_set_ne _ _ (Ne.symm h)]

theorem IsFreeAt_set_self {regions : List MemoryRegion} {i : Nat} {r r' : MemoryRegion} {q : Pos}
    (hi : regions.get? i = some r) (h : q.1 = i) :
    IsFreeAt (regions.set i r') q ↔ r'.frames.get? q.2 = some FrameState.Free := by
  have hlt : i < regions.length := by
    have := List.get?_eq_some.mp hi
    exact this.1
  unfold IsFreeAt
  rw [h, List.get?_set_eq_of_lt _ hlt]
  simp

theorem commitRun_preserves_FFInv {m : PMM} {ff : Pos} {regionIdx spf count pos : Nat}
    {r : MemoryRegion}
    (hinv : FFInv m) (hff : m.firstFree = some ff)
    (hreg : m.regions.get? regionIdx = some r)
    (hge : ff.1 ≤ regionIdx)
    (hpos : (if regionIdx = ff.1 then ff.2 else 0) ≤ pos)
    (hwf : WF m) (hspf0 : 0 < spf) (hspf : spf ≤ 2 ^ 63) :
    FFInv (commitRun m ff regionIdx spf count pos).2 := by
  have hsc : findFirstFree m.regions = some ff := by rw [← hinv]; exact hff
  obtain ⟨hfree, hmin⟩ := findFirstFree_some_iff.mp hsc
  unfold commitRun
  rw [hreg]
  dsimp only
  cases h1 : r.frame_address pos with
  | none => exact hinv
  | some startAddr =>
  cases h2 : r.frame_address (endFrameIdx pos count / spf * spf) with
  | none => exact hinv
  | some endAddr =>
  obtain ⟨hposlen, -⟩ := frame_address_some h1
  obtain ⟨hendlen, -⟩ := frame_address_some h2
  have hrlen : r.frames.length ≤ 2 ^ 63 - 1 := hwf r (List.get?_mem hreg)
  have hpc : 0 < pos + count := by
    by_contra h0
    have h0' : pos + count = 0 := by omega
    have hU : endFrameIdx pos count = U64MAX := by unfold endFrameIdx; rw [if_pos h0']
    have hbig : 2 ^ 64 - spf ≤ endFrameIdx pos count / spf * spf := by
      rw [hU]
      have hdm := Nat.div_add_mod U64MAX spf
      have hmlt : U64MAX % spf < spf := Nat.mod_lt _ hspf0
      have hcm : U64MAX / spf * spf = spf * (U64MAX / spf) := Nat.mul_comm _ _
      unfold U64MAX at hdm hmlt hcm ⊢
      omega
    omega
  have hefi : endFrameIdx pos count = pos + count - 1 := by
    unfold endFrameIdx
    rw [if_neg (by omega)]
  -- the committed state
  by_cases hcond : regionIdx = ff.1 ∧ pos ≤ ff.2
  · -- the run begins exactly at the cached cursor: rescan from past the run
    obtain ⟨hri, hple⟩ := hcond
    have hposff : pos = ff.2 := by
      rw [if_pos hri] at hpos
      omega
    show FFInv (if regionIdx = ff.1 ∧ pos ≤ ff.2 then _ else _)
    rw [if_pos ⟨hri, hple⟩]
    show updateFirstFree _ regionIdx (endFrameIdx pos count + 1) = findFirstFree _
    have hsi : endFrameIdx pos count + 1 = pos + count := by omega
    rw [hsi]
    apply updateFirstFree_eq_findFirstFree
    rintro ⟨qi, qj⟩ hq hfq
    rcases hq with hq | ⟨hq1, hq2⟩
    · -- an earlier region: untouched, and below the old cursor
      have hne : qi ≠ regionIdx := by omega
      rw [IsFreeAt_set_ne hne] at hfq
      exact hmin (qi, qj) (Or.inl (by omega)) hfq
    · -- same region, below the end of the run
      simp only at hq1 hq2
      rw [IsFreeAt_set_self hreg hq1] at hfq
      rw [setRange_get?] at hfq
      split at hfq
      · cases hfq
      · rename_i hout
        have hqjlen : qj < r.frames.length := (List.get?_eq_some.mp hfq).1
        have hqj : qj < pos := by omega
        refine hmin (qi, qj) (Or.inr ⟨by omega, by omega⟩) ?_
        exact ⟨r, by dsimp only; rw [hq1]; exact hreg, hfq⟩
  · -- the run begins strictly after the cursor: the cache stays valid
    show FFInv (if regionIdx = ff.1 ∧ pos ≤ ff.2 then _ else _)
    rw [if_neg hcond]
    show m.firstFree = findFirstFree (m.regions.set regionIdx _)
    rw [hff]
    symm
    rw [findFirstFree_some_iff]
    constructor
    · -- the cached frame is still free
      by_cases hri : regionIdx = ff.1
      · have hple : ff.2 < pos := by
          rcases Nat.lt_or_ge ff.2 pos with h | h
          · exact h
          · exact absurd ⟨hri, h⟩ hcond
        rw [IsFreeAt_set_self hreg hri.symm]
        show (setRange r.frames pos count).get? ff.2 = some FrameState.Free
        rw [setRange_get?, if_neg (by omega)]
        obtain ⟨r₀, hr₀, hfr₀⟩ := hfree
        rw [← hri] at hr₀
        rw [hreg] at hr₀
        cases hr₀
        exact hfr₀
      · rw [IsFreeAt_set_ne (fun h => hri h.symm)]
        exact hfree
    · rintro ⟨qi, qj⟩ hq hfq
      by_cases hq1 : qi = regionIdx
      · -- the touched region: everything below ff.2 is below the run
        have hri : regionIdx = ff.1 := by
          rcases hq with hq | ⟨hq1', hq2⟩
          · omega
          · simp only at hq1'; omega
        have hple : ff.2 < pos := by
          rcases Nat.lt_or_ge ff.2 pos with h | h
          · exact h
          · exact absurd ⟨hri, h⟩ hcond
        have hqj : qj < ff.2 := by
          rcases hq with hq | ⟨hq1', hq2⟩
          · omega
          · exact hq2
        rw [IsFreeAt_set_self hreg hq1] at hfq
        rw [setRange_get?, if_neg (by omega)] at hfq
        refine hmin (qi, qj) hq ?_
        exact ⟨r, by dsimp only; rw [hq1]; exact hreg, hfq⟩
      · rw [IsFreeAt_set_ne hq1] at hfq
        exact hmin (qi, qj) hq hfq

theorem searchRegions_preserves_FFInv {m : PMM} {ff : Pos} {spf count : Nat}
    (hinv : FFInv m) (hff : m.firstFree = some ff) (hwf : WF m)
    (hspf0 : 0 < spf) (hspf : spf ≤ 2 ^ 63) :
    ∀ k regionIdx, ff.1 ≤ regionIdx →
      FFInv (searchRegions m ff spf count k regionIdx).2 := by
  intro k
  induction k with
  | zero =>
    intro regionIdx hge
    exact hinv
  | succ k ih =>
    intro regionIdx hge
    rw [searchRegions]
    by_cases hlt : regionIdx < m.regions.length
    · rw [dif_pos hlt]
      dsimp only
      by_cases hskip :
          (m.regions.get ⟨regionIdx, hlt⟩).frames.length ≤ (if regionIdx = ff.1 then ff.2 else 0)
      · rw [if_pos hskip]
        exact ih (regionIdx + 1) (by omega)
      · rw [if_neg hskip]
        cases hfr : findRun (m.regions.get ⟨regionIdx, hlt⟩).frames spf count
            (alignUp (if regionIdx = ff.1 then ff.2 else 0) spf) with
        | none => exact ih (regionIdx + 1) (by omega)
        | some pos =>
          obtain ⟨⟨j, hj⟩, hrun, hallfree⟩ := findRun_facts hfr
          refine commitRun_preserves_FFInv hinv hff (List.get?_eq_get hlt) hge ?_ hwf hspf0 hspf
          have := alignUp_le (if regionIdx = ff.1 then ff.2 else 0) spf
          omega
    · rw [dif_neg hlt]
      exact hinv

theorem allocateFramesImpl_preserves_FFInv {m : PMM} {spf n : Nat}
    (hinv : FFInv m) (hwf : WF m) (hspf0 : 0 < spf) (hspf : spf ≤ 2 ^ 63) :
    FFInv (allocateFramesImpl spf n m).2 := by
  unfold allocateFramesImpl
  cases hff : m.firstFree with
  | none => exact hinv
  | some ff =>
    exact searchRegions_preserves_FFInv hinv hff hwf hspf0 hspf
      (m.regions.length - ff.1) ff.1 le_rfl

/-! ## The mutations only rewrite frame states in place -/

theorem WF_set {m : PMM} {i : Nat} {r r' : MemoryRegion} (hwf : WF m)
    (hreg : m.regions.get? i = some r) (hlen : r'.frames.length = r.frames.length) :
    ∀ x ∈ m.regions.set i r', x.frames.length ≤ 2 ^ 63 - 1 := by
  intro x hx
  rcases List.mem_or_eq_of_mem_set hx with hmem | rfl
  · exact hwf x hmem
  · rw [hlen]
    exact hwf r (List.get?_mem hreg)

theorem commitRun_WF {m : PMM} {ff : Pos} {regionIdx spf count pos : Nat} (hwf : WF m) :
    WF (commitRun m ff regionIdx spf count pos).2 := by
  unfold commitRun
  cases hreg : m.regions.get? regionIdx with
  | none => exact hwf
  | some r =>
  dsimp only
  cases h1 : r.frame_address pos with
  | none => exact hwf
  | some startAddr =>
  cases h2 : r.frame_address (endFrameIdx pos count / spf * spf) with
  | none => exact hwf
  | some endAddr =>
  by_cases hcond : regionIdx = ff.1 ∧ pos ≤ ff.2
  · rw [if_pos hcond]
    exact WF_set hwf hreg (setRange_length _ _ _)
  · rw [if_neg hcond]
    exact WF_set hwf hreg (setRange_length _ _ _)

theorem searchRegions_WF {m : PMM} {ff : Pos} {spf count : Nat} (hwf : WF m) :
    ∀ k regionIdx, WF (searchRegions m ff spf count k regionIdx).2 := by
  intro k
  induction k with
  | zero =>
    intro regionIdx
    exact hwf
  | succ k ih =>
    intro regionIdx
    rw [searchRegions]
    by_cases hlt : regionIdx < m.regions.length
    · rw [dif_pos hlt]
      dsimp only
      by_cases hskip :
          (m.regions.get ⟨regionIdx, hlt⟩).frames.length ≤ (if regionIdx = ff.1 then ff.2 else 0)
      · rw [if_pos hskip]
        exact ih (regionIdx + 1)
      · rw [if_neg hskip]
        cases findRun (m.regions.get ⟨regionIdx, hlt⟩).frames spf count
            (alignUp (if regionIdx = ff.1 then ff.2 else 0) spf) with
        | none => exact ih (regionIdx + 1)
        | some pos => exact commitRun_WF hwf
    · rw [dif_neg hlt]
      exact hwf

theorem allocateFramesImpl_WF {m : PMM} {spf n : Nat} (hwf : WF m) :
    WF (allocateFramesImpl spf n m).2 := by
  unfold allocateFramesImpl
  cases m.firstFree with
  | none => exact hwf
  | some ff => exact searchRegions_WF hwf (m.regions.length - ff.1) ff.1

/-! ## Deallocation preserves the invariant -/

theorem IsFreeAt_setFrame_other {regions : List MemoryRegion} {loc : Pos} {r : MemoryRegion}
    {v : FrameState} (hreg : regions.get? loc.1 = some r) {q : Pos}
    (hne : q.1 ≠ loc.1 ∨ q.2 ≠ loc.2) :
    IsFreeAt (regions.set loc.1 { r with frames := r.frames.set loc.2 v }) q ↔
      IsFreeAt regions q := by
  rcases hne with hne | hne
  · exact IsFreeAt_set_ne hne
  · by_cases hq1 : q.1 = loc.1
    · rw [IsFreeAt_set_self hreg hq1]
      show (r.frames.set loc.2 v).get? q.2 = _ ↔ _
      rw [List.get?_set_ne _ _ (Ne.symm hne)]
      unfold IsFreeAt
      rw [hq1, hreg]
      simp
    · exact IsFreeAt_set_ne hq1

theorem deallocateFrame4K_preserves_FFInv {m : PMM} {addr : Nat} (hinv : FFInv m) :
    FFInv (deallocateFrame4K m addr).2 := by
  unfold deallocateFrame4K
  cases hloc : findFrameLocation m.regions addr with
  | none => exact hinv
  | some loc =>
  dsimp only
  cases hreg : m.regions.get? loc.1 with
  | none => exact hinv
  | some r =>
  dsimp only
  by_cases halloc : r.frames.get? loc.2 = some FrameState.Allocated
  · rw [if_pos halloc]
    have hlen : loc.2 < r.frames.length := (List.get?_eq_some.mp halloc).1
    have hfreeloc :
        IsFreeAt (m.regions.set loc.1 { r with frames := r.frames.set loc.2 FrameState.Free })
          loc := by
      rw [IsFreeAt_set_self hreg rfl]
      show (r.frames.set loc.2 FrameState.Free).get? loc.2 = _
      rw [List.get?_set_eq_of_lt _ hlen]
    cases hff : m.firstFree with
    | none =>
      have hnone : ∀ p, ¬IsFreeAt m.regions p :=
        findFirstFree_none_iff.mp (by rw [← hinv]; exact hff)
      show (if true = true then some loc else none) = _
      rw [if_pos rfl]
      symm
      rw [findFirstFree_some_iff]
      refine ⟨hfreeloc, ?_⟩
      intro q hq hfq
      have hne : q.1 ≠ loc.1 ∨ q.2 ≠ loc.2 := by
        rcases hq with hq | ⟨hq1, hq2⟩
        · exact Or.inl (by omega)
        · exact Or.inr (by omega)
      rw [IsFreeAt_setFrame_other hreg hne] at hfq
      exact hnone q hfq
    | some ff =>
      have hsc : findFirstFree m.regions = some ff := by rw [← hinv]; exact hff
      obtain ⟨hfree, hmin⟩ := findFirstFree_some_iff.mp hsc
      by_cases hb : posLt loc ff
      · show (if decide (posLt loc ff) = true then some loc else some ff) = _
        rw [if_pos (by simpa using hb)]
        symm
        rw [findFirstFree_some_iff]
        refine ⟨hfreeloc, ?_⟩
        intro q hq hfq
        have hne : q.1 ≠ loc.1 ∨ q.2 ≠ loc.2 := by
          rcases hq with hq | ⟨hq1, hq2⟩
          · exact Or.inl (by omega)
          · exact Or.inr (by omega)
        rw [IsFreeAt_setFrame_other hreg hne] at hfq
        exact hmin q (posLt_trans hq hb) hfq
      · -- the freed frame is not earlier than the cached cursor
        have hneq : ff ≠ loc := by
          rintro rfl
          obtain ⟨r₀, hr₀, hfr₀⟩ := hfree
          rw [hreg] at hr₀
          cases hr₀
          rw [halloc] at hfr₀
          cases hfr₀
        have hlb : posLt ff loc := by
          rcases posLt_trichotomy loc ff with h | h | h
          · exact absurd h hb
          · exact absurd h.symm hneq
          · exact h
        show (if decide (posLt loc ff) = true then some loc else some ff) = _
        rw [if_neg (by simpa using hb)]
        symm
        rw [findFirstFree_some_iff]
        constructor
        · have hne : ff.1 ≠ loc.1 ∨ ff.2 ≠ loc.2 := by
            rcases hlb with h | ⟨h1, h2⟩
            · exact Or.inl (by omega)
            · exact Or.inr (by omega)
          rw [IsFreeAt_setFrame_other hreg hne]
          exact hfree
        · intro q hq hfq
          have hqloc : posLt q loc := posLt_trans hq hlb
          have hne : q.1 ≠ loc.1 ∨ q.2 ≠ loc.2 := by
            rcases hqloc with h | ⟨h1, h2⟩
            · exact Or.inl (by omega)
            · exact Or.inr (by omega)
          rw [IsFreeAt_setFrame_other hreg hne] at hfq
          exact hmin q hq hfq
  · rw [if_neg halloc]
    exact hinv

theorem deallocateFrame4K_WF {m : PMM} {addr : Nat} (hwf : WF m) :
    WF (deallocateFrame4K m addr).2 := by
  unfold deallocateFrame4K
  cases findFrameLocation m.regions addr with
  | none => exact hwf
  | some loc =>
  dsimp only
  cases hreg : m.regions.get? loc.1 with
  | none => exact hwf
  | some r =>
  dsimp only
  by_cases halloc : r.frames.get? loc.2 = some FrameState.Allocated
  · rw [if_pos halloc]
    exact WF_set hwf hreg (List.length_set _ _ _)
  · rw [if_neg halloc]
    exact hwf

theorem deallocSeq4K_preserves {m : PMM} {l : List Nat} (hinv : FFInv m) (hwf : WF m) :
    FFInv (deallocSeq4K m l).2 ∧ WF (deallocSeq4K m l).2 := by
  induction l generalizing m with
  | nil => exact ⟨hinv, hwf⟩
  | cons a rest ih =>
    unfold deallocSeq4K
    have h4 : FFInv (deallocateFrame4K m a).2 := deallocateFrame4K_preserves_FFInv hinv
    have h4w : WF (deallocateFrame4K m a).2 := deallocateFrame4K_WF hwf
    rcases hda : deallocateFrame4K m a with ⟨res, m'⟩
    rw [hda] at h4 h4w
    cases res with
    | none => exact ⟨h4, h4w⟩
    | some x => exact ih h4 h4w

theorem deallocateFrame2M_preserves {m : PMM} {addr : Nat} (hinv : FFInv m) (hwf : WF m) :
    FFInv (deallocateFrame2M m addr).2 ∧ WF (deallocateFrame2M m addr).2 := by
  unfold deallocateFrame2M
  have h := @deallocSeq4K_preserves m ((List.range 512).map (fun i => addr + i * 4096)) hinv hwf
  rcases hds : deallocSeq4K m ((List.range 512).map (fun i => addr + i * 4096)) with ⟨res, m'⟩
  rw [hds] at h
  cases res with
  | none => exact h
  | some x => exact h

theorem deallocSeq2M_preserves {m : PMM} {l : List Nat} (hinv : FFInv m) (hwf : WF m) :
    FFInv (deallocSeq2M m l).2 ∧ WF (deallocSeq2M m l).2 := by
  induction l generalizing m with
  | nil => exact ⟨hinv, hwf⟩
  | cons a rest ih =>
    unfold deallocSeq2M
    have h2 := @deallocateFrame2M_preserves m a hinv hwf
    rcases hda : deallocateFrame2M m a with ⟨res, m'⟩
    rw [hda] at h2
    cases res with
    | none => exact h2
    | some x => exact ih h2.1 h2.2

theorem deallocateFrame1G_preserves {m : PMM} {addr : Nat} (hinv : FFInv m) (hwf : WF m) :
    FFInv (deallocateFrame1G m addr).2 ∧ WF (deallocateFrame1G m addr).2 := by
  unfold deallocateFrame1G
  have h := @deallocSeq2M_preserves m ((List.range 512).map (fun i => addr + i * 2097152)) hinv hwf
  rcases hds : deallocSeq2M m ((List.range 512).map (fun i => addr + i * 2097152)) with ⟨res, m'⟩
  rw [hds] at h
  cases res with
  | none => exact h
  | some x => exact h

theorem deallocSeq1G_preserves {m : PMM} {l : List Nat} (hinv : FFInv m) (hwf : WF m) :
    FFInv (deallocSeq1G m l).2 ∧ WF (deallocSeq1G m l).2 := by
  induction l generalizing m with
  | nil => exact ⟨hinv, hwf⟩
  | cons a rest ih =>
    unfold deallocSeq1G
    have h1 := @deallocateFrame1G_preserves m a hinv hwf
    rcases hda : deallocateFrame1G m a with ⟨res, m'⟩
    rw [hda] at h1
    cases res with
    | none => exact h1
    | some x => exact ih h1.1 h1.2

/-- Every reachable manager state carries the cache invariant (and the slice
length bound). -/
theorem reachable_FFInv_WF {m : PMM} (h : Reachable m) : FFInv m ∧ WF m := by
  induction h with
  | construct regions hwf => exact ⟨rfl, hwf⟩
  | alloc spf n hre hspfset heq hnp ih =>
    obtain ⟨hinv, hwf⟩ := ih
    have hspf0 : 0 < spf := by rcases hspfset with h | h | h <;> omega
    have hspfle : spf ≤ 2 ^ 63 := by rcases hspfset with h | h | h <;> (subst h; norm_num)
    constructor
    · have := @allocateFramesImpl_preserves_FFInv _ spf n hinv hwf hspf0 hspfle
      rwa [heq] at this
    · have := @allocateFramesImpl_WF _ spf n hwf
      rwa [heq] at this
  | dealloc4K addr hre ih =>
    exact ⟨deallocateFrame4K_preserves_FFInv ih.1, deallocateFrame4K_WF ih.2⟩
  | dealloc2M addr hre ih => exact deallocateFrame2M_preserves ih.1 ih.2
  | dealloc1G addr hre ih => exact deallocateFrame1G_preserves ih.1 ih.2
  | deallocRange4K start last hre ih => exact deallocSeq4K_preserves ih.1 ih.2
  | deallocRange2M start last hre ih => exact deallocSeq2M_preserves ih.1 ih.2
  | deallocRange1G start last hre ih => exact deallocSeq1G_preserves ih.1 ih.2

/-! ## Claim C1 -/

/-- C1.  For every `PhysicalMemoryManager` reachable from construction by any
sequence of `allocate_frames` / `allocate_frame` / `deallocate_frame` /
`deallocate_frames` calls (at page sizes 4KiB, 2MiB, 1GiB), the cached
`first_free` equals the lexicographically smallest `(region_idx, frame_idx)`
whose state is `Free`, and is `None` exactly when no frame in any region is
`Free`. -/
theorem first_free_cache_correct (m : PMM) (h : Reachable m) :
    (∀ p, m.firstFree = some p →
        IsFreeAt m.regions p ∧ ∀ q, posLt q p → ¬IsFreeAt m.regions q) ∧
      (m.firstFree = none ↔ ∀ p, ¬IsFreeAt m.regions p) := by
  obtain ⟨hinv, -⟩ := reachable_FFInv_WF h
  constructor
  · intro p hp
    exact findFirstFree_some_iff.mp (by rw [← hinv]; exact hp)
  · rw [hinv]
    exact findFirstFree_none_iff

/-- A tiny concrete manager used to instantiate `first_free_cache_correct`. -/
def c1PMM : PMM := PMM.new [⟨0, [FrameState.Free]⟩]

/-- Witness for C1 at a concrete constructed manager. -/
theorem first_free_cache_correct_witness :
    (∀ p, c1PMM.firstFree = some p →
        IsFreeAt c1PMM.regions p ∧ ∀ q, posLt q p → ¬IsFreeAt c1PMM.regions q) ∧
      (c1PMM.firstFree = none ↔ ∀ p, ¬IsFreeAt c1PMM.regions p) :=
  first_free_cache_correct c1PMM
    (Reachable.construct [⟨0, [FrameState.Free]⟩]
      (by intro r hr; rcases List.mem_singleton.mp hr with rfl; norm_num))

/-! ## Claim C5 -/

theorem commitRun_ok {m : PMM} {ff : Pos} {ri spf count pos sA eA : Nat} {m' : PMM}
    {r : MemoryRegion}
    (hreg : m.regions.get? ri = some r)
    (hrun : pos + count ≤ r.frames.length)
    (hdvd : spf ∣ pos) (hcnt : spf ∣ count)
    (hwfr : r.frames.length ≤ 2 ^ 63 - 1)
    (hspf0 : 0 < spf) (hspfle : spf ≤ 2 ^ 63)
    (h : commitRun m ff ri spf count pos = (.ok sA eA, m')) :
    r.base ≤ sA ∧ eA + spf * 4096 ≤ r.base + r.frames.length * 4096 := by
  unfold commitRun at h
  rw [hreg] at h
  dsimp only at h
  cases h1 : r.frame_address pos with
  | none => rw [h1] at h; cases h
  | some startAddr =>
  rw [h1] at h
  cases h2 : r.frame_address (endFrameIdx pos count / spf * spf) with
  | none => rw [h2] at h; cases h
  | some endAddr =>
  rw [h2] at h
  obtain ⟨hposlen, hsa⟩ := frame_address_some h1
  obtain ⟨hendlen, hea⟩ := frame_address_some h2
  have hpc : 0 < pos + count := by
    by_contra h0
    have h0' : pos + count = 0 := by omega
    have hU : endFrameIdx pos count = U64MAX := by unfold endFrameIdx; rw [if_pos h0']
    have hbig : 2 ^ 64 - spf ≤ endFrameIdx pos count / spf * spf := by
      rw [hU]
      have hdm := Nat.div_add_mod U64MAX spf
      have hmlt : U64MAX % spf < spf := Nat.mod_lt _ hspf0
      have hcm : U64MAX / spf * spf = spf * (U64MAX / spf) := Nat.mul_comm _ _
      unfold U64MAX at hdm hmlt hcm ⊢
      omega
    omega
  -- extract the returned addresses from the final if-chain
  dsimp only at h
  have hres : startAddr = sA ∧ endAddr = eA := by
    by_cases c1 : 2 ^ 52 ≤ startAddr
    · rw [if_pos c1] at h; simp at h
    · rw [if_neg c1] at h
      by_cases c2 : ¬ (spf * 4096 ∣ startAddr)
      · rw [if_pos c2] at h; simp at h
      · rw [if_neg c2] at h
        by_cases c3 : 2 ^ 52 ≤ endAddr
        · rw [if_pos c3] at h; simp at h
        · rw [if_neg c3] at h
          by_cases c4 : ¬ (spf * 4096 ∣ endAddr)
          · rw [if_pos c4] at h; simp at h
          · rw [if_neg c4] at h
            rw [Prod.ext_iff] at h
            obtain ⟨h₁, -⟩ := h
            rw [AllocResult.ok.injEq] at h₁
            exact h₁
  obtain ⟨rfl, rfl⟩ := hres
  constructor
  · omega
  · -- the end address plus one page stays inside the region
    obtain ⟨a, rfl⟩ := hdvd
    obtain ⟨b, rfl⟩ := hcnt
    have hrun' : spf * (a + b) ≤ r.frames.length := by
      rw [Nat.mul_add]; exact hrun
    have hab : 0 < a + b := by
      rcases Nat.eq_zero_or_pos (a + b) with h0 | h0
      · exfalso
        have : spf * a + spf * b = 0 := by
          have : a = 0 ∧ b = 0 := by omega
          rw [this.1, this.2]; ring
        omega
      · exact h0
    have hefi : endFrameIdx (spf * a) (spf * b) = spf * (a + b) - 1 := by
      unfold endFrameIdx
      rw [if_neg (by omega), Nat.mul_add]
    have hdivval : (spf * (a + b) - 1) / spf = a + b - 1 := by
      have hrepr : spf * (a + b) - 1 = spf - 1 + (a + b - 1) * spf := by
        have h1 : 1 ≤ spf * (a + b) := by
          calc 1 ≤ spf * 1 := by omega
          _ ≤ spf * (a + b) := Nat.mul_le_mul_left _ hab
        have h2 : (a + b - 1) * spf + spf = (a + b) * spf := by
          have : a + b - 1 + 1 = a + b := by omega
          calc (a + b - 1) * spf + spf = (a + b - 1 + 1) * spf := by ring
          _ = (a + b) * spf := by rw [this]
        have h3 : (a + b) * spf = spf * (a + b) := Nat.mul_comm _ _
        omega
      rw [hrepr, Nat.add_mul_div_right _ _ hspf0, Nat.div_eq_of_lt (by omega)]
      omega
    have hend : endFrameIdx (spf * a) (spf * b) / spf * spf + spf = spf * (a + b) := by
      rw [hefi, hdivval]
      have : (a + b - 1) * spf + spf = (a + b) * spf := by
        have h1 : a + b - 1 + 1 = a + b := by omega
        calc (a + b - 1) * spf + spf = (a + b - 1 + 1) * spf := by ring
        _ = (a + b) * spf := by rw [h1]
      rw [this]
      exact Nat.mul_comm _ _
    have hle : endFrameIdx (spf * a) (spf * b) / spf * spf + spf ≤ r.frames.length := by
      rw [hend]; exact hrun'
    omega

theorem searchRegions_ok {m : PMM} {ff : Pos} {spf count : Nat}
    (hwf : WF m) (hspf0 : 0 < spf) (hspfle : spf ≤ 2 ^ 63) (hcnt : spf ∣ count) :
    ∀ k ri sA eA m',
      searchRegions m ff spf count k ri = (.ok sA eA, m') →
      ∃ i r, m.regions.get? i = some r ∧ r.base ≤ sA ∧
        eA + spf * 4096 ≤ r.base + r.frames.length * 4096 := by
  intro k
  induction k with
  | zero =>
    intro ri sA eA m' h
    cases h
  | succ k ih =>
    intro ri sA eA m' h
    rw [searchRegions] at h
    by_cases hlt : ri < m.regions.length
    · rw [dif_pos hlt] at h
      dsimp only at h
      by_cases hskip :
          (m.regions.get ⟨ri, hlt⟩).frames.length ≤ (if ri = ff.1 then ff.2 else 0)
      · rw [if_pos hskip] at h
        exact ih (ri + 1) sA eA m' h
      · rw [if_neg hskip] at h
        cases hfr : findRun (m.regions.get ⟨ri, hlt⟩).frames spf count
            (alignUp (if ri = ff.1 then ff.2 else 0) spf) with
        | none =>
          rw [hfr] at h
          exact ih (ri + 1) sA eA m' h
        | some pos =>
          rw [hfr] at h
          obtain ⟨⟨j, hj⟩, hrun, -⟩ := findRun_facts hfr
          have hreg : m.regions.get? ri = some (m.regions.get ⟨ri, hlt⟩) :=
            List.get?_eq_get hlt
          have hdvd : spf ∣ pos := by
            rw [hj]
            exact Nat.dvd_add (alignUp_dvd _ _ hspf0) (Dvd.intro_left j rfl)
          refine ⟨ri, m.regions.get ⟨ri, hlt⟩, hreg, ?_⟩
          exact commitRun_ok hreg hrun hdvd hcnt
            (hwf _ (List.get?_mem hreg)) hspf0 hspfle h
    · rw [dif_neg hlt] at h
      cases h

/-- C5.  For every manager state, every `n` and every page size `S`, a
successful `allocate_frames(n)` returns a frame range lying entirely within
one `MemoryRegion`: the run of 4KiB units `[start, end + S)` never spans two
distinct regions, even when two regions are adjacent in physical address
space. -/
theorem allocate_frames_single_region (m : PMM) (spf n sA eA : Nat) (m' : PMM)
    (hwf : WF m) (hspf : spf = 1 ∨ spf = 512 ∨ spf = 262144)
    (h : allocateFramesImpl spf n m = (.ok sA eA, m')) :
    ∃ i r, m.regions.get? i = some r ∧ r.base ≤ sA ∧
      eA + spf * 4096 ≤ r.base + r.frames.length * 4096 := by
  have hspf0 : 0 < spf := by rcases hspf with h' | h' | h' <;> omega
  have hspfle : spf ≤ 2 ^ 63 := by rcases hspf with h' | h' | h' <;> (subst h'; norm_num)
  unfold allocateFramesImpl at h
  cases hff : m.firstFree with
  | none => rw [hff] at h; cases h
  | some ff =>
    rw [hff] at h
    exact searchRegions_ok hwf hspf0 hspfle (Dvd.intro_left n rfl)
      (m.regions.length - ff.1) ff.1 sA eA m' h

/-- A concrete manager for the C5 witness. -/
def c5PMM : PMM := PMM.new [⟨0, [FrameState.Free]⟩, ⟨4096, [FrameState.Free]⟩]

/-- Witness for C5: a concrete successful allocation, in a manager with two
back-to-back adjacent regions. -/
theorem allocate_frames_single_region_witness :
    ∃ i r, c5PMM.regions.get? i = some r ∧ r.base ≤ 0 ∧
      0 + 1 * 4096 ≤ r.base + r.frames.length * 4096 :=
  allocate_frames_single_region c5PMM 1 1 0 0
    { regions := [⟨0, [FrameState.Allocated]⟩, ⟨4096, [FrameState.Free]⟩],
      firstFree := some (1, 0) }
    (by unfold WF; decide) (Or.inl rfl) (by decide)

/-! ## Claim C10 -/

/-- A single region whose base (0x1000) is 4KiB-aligned but not 2MiB-aligned,
with exactly 512 `Free` frames. -/
def c10PMM : PMM := PMM.new [⟨4096, List.replicate 512 FrameState.Free⟩]

set_option maxRecDepth 4096 in
/-- C10.  `allocate_frames` is not atomic on failure: on `c10PMM` (a region
whose base is 4KiB- but not 2MiB-aligned, holding 512 free frames),
`allocate_frames::<Size2MiB>(1)` returns `None` while having already flipped
the candidate run from `Free` to `Allocated` and advanced `first_free`, so
"state unchanged when the result is `None`" does not hold for allocation. -/
theorem allocate_not_atomic_on_failure :
    (allocateFramesImpl 512 1 c10PMM).1 = .fail ∧
      (allocateFramesImpl 512 1 c10PMM).2 ≠ c10PMM ∧
      (allocateFramesImpl 512 1 c10PMM).2.regions =
        [⟨4096, List.replicate 512 FrameState.Allocated⟩] ∧
      (allocateFramesImpl 512 1 c10PMM).2.firstFree = none ∧
      c10PMM.firstFree = some (0, 0) := by
  refine ⟨?_, ?_, ?_, ?_, ?_⟩ <;> decide

/-! ## Stage-1 bump allocator (`src/kernel/src/mem/phys.rs`) -/

/-- A limine memory-map entry as the bump allocator sees it: `base`, `length`,
and whether `entry_type == EntryType::USABLE`. -/
structure LimineEntry where
  base : Nat
  length : Nat
  usable : Bool
deriving DecidableEq, Repr

/-- `(lo..hi).step_by(step)`: `lo, lo + step, ...` strictly below `hi`. -/
def stepAddrs (lo hi step : Nat) : List Nat :=
  (List.range ((hi - lo + step - 1) / step)).map (fun i => lo + i * step)

/-- `PhysicalBumpAllocator` (lines 529-560): the firmware entries plus the
bump cursor `next_frame`. -/
structure PhysicalBumpAllocator where
  regions : List LimineEntry
  next_frame : Nat
deriving DecidableEq, Repr

/-- `PhysicalBumpAllocator::usable_frames`: filter the usable entries, map
each to `region.base..region.length` (sic — the range runs from `base` up to
the `length` *field*, not `base + length`), step by 4096 and align each
address down (`PhysFrame::containing_address`). -/
def PhysicalBumpAllocator.usable_frames (a : PhysicalBumpAllocator) : List Nat :=
  ((a.regions.filter (·.usable)).bind (fun e => stepAddrs e.base e.length 4096)).map
    (fun addr => addr / 4096 * 4096)

/-- `PhysicalBumpAllocator::allocate_frame`: `usable_frames().nth(next_frame)`,
advancing the cursor only on success. -/
def PhysicalBumpAllocator.allocate_frame (a : PhysicalBumpAllocator) :
    Option Nat × PhysicalBumpAllocator :=
  match a.usable_frames.get? a.next_frame with
  | some f => (some f, { a with next_frame := a.next_frame + 1 })
  | none => (none, a)

/-- Modelled from the spec: the frames the stage-1 allocator is specified to
enumerate — for each usable entry in order, the 4KiB frame addresses
`base, base + 4096, ..., base + length - 4096` (the frames lying inside the
entry). -/
def specUsableFrames (regions : List LimineEntry) : List Nat :=
  (regions.filter (·.usable)).bind
    (fun e => (List.range (e.length / 4096)).map (fun i => e.base + i * 4096))

/-! ## ELF parser (`kernel_elfloader/src/file.rs`) -/

/-- Little-endian read of `n` bytes at offset `off` (bytes past the end read
as 0; the callers only use in-range offsets). -/
def readLE (src : List Nat) (off n : Nat) : Nat :=
  (List.range n).foldr (fun i acc => acc * 256 + src.getD (off + i) 0) 0

/-- `ElfType` (`#[repr(u16)]`, variants 0x00-0x04). -/
inductive ElfType where
  | None : ElfType
  | Rel : ElfType
  | Exec : ElfType
  | Dyn : ElfType
  | Core : ElfType
deriving DecidableEq, Repr

/-- The `TryFromBytes` validity check for `ElfType`: only tags 0-4 parse. -/
def ElfType.ofNat? : Nat → Option ElfType
  | 0 => some .None
  | 1 => some .Rel
  | 2 => some .Exec
  | 3 => some .Dyn
  | 4 => some .Core
  | _ => none

/-- `ElfIdent` (the 7 padding bytes carry no information). `class` is a Lean
keyword, hence `cls`. -/
structure ElfIdent where
  magic : List Nat
  cls : Nat
  data : Nat
  version : Nat
  os_abi : Nat
  abi_version : Nat
deriving DecidableEq, Repr

/-- `ElfHeader` (64 bytes, `#[repr(C)]`). -/
structure ElfHeader where
  ident : ElfIdent
  typ : ElfType
  machine : Nat
  version : Nat
  entry : Nat
  phoff : Nat
  shoff : Nat
  flags : Nat
  ehsize : Nat
  phentsize : Nat
  phnum : Nat
  shentsize : Nat
  shnum : Nat
  shstrndx : Nat
deriving DecidableEq, Repr

/-- `ElfParseError`. -/
inductive ElfParseError where
  | HeaderParseError : ElfParseError
  | InvalidMagic : ElfParseError
  | InvalidPhEntSize : ElfParseError
  | InvalidShEntSize : ElfParseError
  | UnsupportedOsAbi : ElfParseError
  | UnsupportedElfVersion : ElfParseError
  | UnsupportedEndian : ElfParseError
deriving DecidableEq, Repr

/-- A parsed `ElfFile`: the borrowed byte buffer plus the validated header. -/
structure ElfFile where
  source : List Nat
  header : ElfHeader
deriving DecidableEq, Repr

/-- The outcome of `ElfFile::try_parse`: a Rust panic, a named error, or a
parsed file. -/
inductive ParseResult where
  | panics : ParseResult
  | error (e : ElfParseError) : ParseResult
  | ok (f : ElfFile) : ParseResult
deriving DecidableEq, Repr

/-- Decode the 64 header bytes (offsets per the `#[repr(C)]` layout). -/
def decodeElfHeader (source : List Nat) (typ : ElfType) : ElfHeader :=
  { ident :=
      { magic := [source.getD 0 0, source.getD 1 0, source.getD 2 0, source.getD 3 0]
        cls := source.getD 4 0
        data := source.getD 5 0
        version := source.getD 6 0
        os_abi := source.getD 7 0
        abi_version := source.getD 8 0 }
    typ := typ
    machine := readLE source 18 2
    version := readLE source 20 4
    entry := readLE source 24 8
    phoff := readLE source 32 8
    shoff := readLE source 40 8
    flags := readLE source 48 4
    ehsize := readLE source 52 2
    phentsize := readLE source 54 2
    phnum := readLE source 56 2
    shentsize := readLE source 58 2
    shnum := readLE source 60 2
    shstrndx := readLE source 62 2 }

/-- `ElfFile::try_parse` (file.rs lines 34-66).  The function first takes the
slice `&source[..size_of::<ElfHeader>()]`, which *panics* when the buffer
holds fewer than 64 bytes; `zerocopy` then rejects an invalid `ElfType` tag
with `HeaderParseError` (buffer alignment, a property of the host allocation,
is not modelled — the buffer is taken as adequately aligned); the named
validations follow in source order.  The compile target is little-endian, so
`ENDIAN = 1`. -/
def ElfFile.try_parse (source : List Nat) : ParseResult :=
  if source.length < 64 then .panics
  else
    match ElfType.ofNat? (readLE source 16 2) with
    | Option.none => .error .HeaderParseError
    | some typ =>
      let header := decodeElfHeader source typ
      if header.ident.magic ≠ [0x7F, 0x45, 0x4C, 0x46] then .error .InvalidMagic
      else if header.ident.data ≠ 1 then .error .UnsupportedEndian
      else if header.phentsize ≠ 56 then .error .InvalidPhEntSize
      else if header.shentsize ≠ 64 then .error .InvalidShEntSize
      else if header.ident.version ≠ 1 ∨ header.version ≠ 1 then .error .UnsupportedElfVersion
      else if header.ident.os_abi ≠ 0 then .error .UnsupportedOsAbi
      else .ok ⟨source, header⟩

/-- `ProgramHeader` (56 bytes; `typ` is the transparent `u16`
`ProgramHeaderType`, `flags` the transparent `u32` `ProgramHeaderFlags`). -/
structure ProgramHeader where
  typ : Nat
  flags : Nat
  offset : Nat
  vaddr : Nat
  paddr : Nat
  filesz : Nat
  memsz : Nat
  align : Nat
deriving DecidableEq, Repr

/-- Reinterpret one 56-byte chunk as a `ProgramHeader` (field offsets per the
`#[repr(C)]` layout: `typ` at 0, two padding bytes, `flags` at 4, then six
`usize` fields). -/
def parseProgramHeader (src : List Nat) (off : Nat) : ProgramHeader :=
  { typ := readLE src off 2
    flags := readLE src (off + 4) 4
    offset := readLE src (off + 8) 8
    vaddr := readLE src (off + 16) 8
    paddr := readLE src (off + 24) 8
    filesz := readLE src (off + 32) 8
    memsz := readLE src (off + 40) 8
    align := readLE src (off + 48) 8 }

/-- `ElfFile::program_headers` via `ElfFile::headers::<ProgramHeader>`: the
slice `&source[phoff .. phoff + phnum * 56]` panics (`none`) when out of
range; each 56-byte chunk reinterprets unconditionally. -/
def ElfFile.program_headers (f : ElfFile) : Option (List ProgramHeader) :=
  if f.header.phoff + f.header.phnum * 56 ≤ f.source.length then
    some ((List.range f.header.phnum).map
      (fun i => parseProgramHeader f.source (f.header.phoff + i * 56)))
  else Option.none

/-! ## ELF loader (`kernel_elfloader/src/lib.rs`) -/

/-- `LoadElfError`. -/
inductive LoadElfError where
  | AllocationFailed : LoadElfError
  | UnsupportedFileType (t : ElfType) : LoadElfError
  | InvalidSizeOrAlign : LoadElfError
  | InvalidVirtualAddress (a : Nat) : LoadElfError
  | TooManyTlsHeaders : LoadElfError
deriving DecidableEq, Repr

/-- A memory-api allocation: its requested location (`Location::Fixed(vaddr)`
or `Location::Anywhere`) and its byte content.  The loader overwrites every
byte of the allocation (`copy_from_slice` then `fill(0)`), so the content the
backend hands out does not influence the final bytes. -/
structure Allocation where
  location : Option Nat
  bytes : List Nat
deriving DecidableEq, Repr

/-- The success/failure behaviour of the generic `MemoryApi` capability,
indexed by the running count of `allocate` calls the loader has made. -/
structure MemCfg where
  allocOk : Nat → Bool
  makeExecOk : Nat → Bool
  makeRoOk : Nat → Bool

/-- `ElfImage`: the four permission-typed allocation collections. -/
structure ElfImage where
  executable_allocations : List Allocation
  readonly_allocations : List Allocation
  writable_allocations : List Allocation
  tls_allocation : Option Allocation
deriving DecidableEq, Repr

/-- Outcome of `ElfLoader::load`. -/
inductive LoadResult where
  | panics : LoadResult
  | error (e : LoadElfError) : LoadResult
  | ok (img : ElfImage) : LoadResult
deriving DecidableEq, Repr

/-- Outcome of one loader stage, threading the allocate-call counter. -/
inductive LoadStep where
  | panics : LoadStep
  | error (e : LoadElfError) : LoadStep
  | ok (k : Nat) (img : ElfImage) : LoadStep
deriving DecidableEq, Repr

/-- `VirtAddr::try_new`: the address must be canonical (bits 47-63 all equal
to bit 47). -/
def canonical (a : Nat) : Prop :=
  a < 2 ^ 47 ∨ (0xFFFF800000000000 ≤ a ∧ a < 2 ^ 64)

instance (a : Nat) : Decidable (canonical a) := by unfold canonical; infer_instance

/-- `usize::is_power_of_two`. -/
def isPow2 (n : Nat) : Prop := 0 < n ∧ n &&& (n - 1) = 0

instance (n : Nat) : Decidable (isPow2 n) := by unfold isPow2; infer_instance

/-- `Layout::from_size_align(size, align)` succeeds iff `align` is a power of
two and `size` rounded up to `align` does not overflow `isize`. -/
def layoutValid (size align : Nat) : Prop :=
  isPow2 align ∧ size ≤ (2 ^ 63 - 1) - (align - 1)

instance (size align : Nat) : Decidable (layoutValid size align) := by
  unfold layoutValid; infer_instance

/-- The final content of a loaded segment: the first `filesz` bytes are the
on-disk data, the remaining `memsz - filesz` bytes are zero-filled. -/
def segmentBytes (source : List Nat) (h : ProgramHeader) : List Nat :=
  (source.drop h.offset).take h.filesz ++ List.replicate (h.memsz - h.filesz) 0

/-- `ElfLoader::load_loadable_headers` (lines 83-127), one LOAD header at a
time.  Per header, in source order: `program_data` slices
`source[offset..offset+filesz]` (panic when out of range); the `Fixed`
location needs a canonical `vaddr`; `Layout::from_size_align(memsz, align)`
must be valid; `allocate` may fail; `slice[..filesz]` panics when
`filesz > memsz`; the W^X assertion panics; then the permission class
transition (`make_executable` / none / `make_readonly`) may fail. -/
def load_loadable_headers (cfg : MemCfg) (source : List Nat) :
    List ProgramHeader → Nat → ElfImage → LoadStep
  | [], k, img => .ok k img
  | h :: rest, k, img =>
    if source.length < h.offset + h.filesz then .panics
    else if ¬ canonical h.vaddr then .error (.InvalidVirtualAddress h.vaddr)
    else if ¬ layoutValid h.memsz h.align then .error .InvalidSizeOrAlign
    else if cfg.allocOk k = false then .error .AllocationFailed
    else if h.memsz < h.filesz then .panics
    else if h.flags &&& 1 ≠ 0 ∧ h.flags &&& 2 ≠ 0 then .panics
    else if h.flags &&& 1 ≠ 0 then
      if cfg.makeExecOk k then
        load_loadable_headers cfg source rest (k + 1)
          { img with executable_allocations :=
              img.executable_allocations ++ [⟨some h.vaddr, segmentBytes source h⟩] }
      else .error .AllocationFailed
    else if h.flags &&& 2 ≠ 0 then
      load_loadable_headers cfg source rest (k + 1)
        { img with writable_allocations :=
            img.writable_allocations ++ [⟨some h.vaddr, segmentBytes source h⟩] }
    else
      if cfg.makeRoOk k then
        load_loadable_headers cfg source rest (k + 1)
          { img with readonly_allocations :=
              img.readonly_allocations ++ [⟨some h.vaddr, segmentBytes source h⟩] }
      else .error .AllocationFailed

/-- `ElfLoader::load_tls` (lines 129-164): `at_most_one` TLS header; zero is
fine; one is materialized exactly like a LOAD segment but at
`Location::Anywhere` and transitioned to read-only. -/
def load_tls (cfg : MemCfg) (source : List Nat) :
    List ProgramHeader → Nat → ElfImage → LoadStep
  | [], k, img => .ok k img
  | [t], k, img =>
    if source.length < t.offset + t.filesz then .panics
    else if ¬ layoutValid t.memsz t.align then .error .InvalidSizeOrAlign
    else if cfg.allocOk k = false then .error .AllocationFailed
    else if t.memsz < t.filesz then .panics
    else if cfg.makeRoOk k then
      .ok (k + 1) { img with tls_allocation := some ⟨Option.none, segmentBytes source t⟩ }
    else .error .AllocationFailed
  | _ :: _ :: _, _, _ => .error .TooManyTlsHeaders

/-- `ElfLoader::load` (lines 55-81): assert `ET_EXEC`, then the LOAD stage,
then the TLS stage. -/
def ElfLoader.load (cfg : MemCfg) (f : ElfFile) : LoadResult :=
  if f.header.typ ≠ ElfType.Exec then .panics
  else
    match f.program_headers with
    | Option.none => .panics
    | some phdrs =>
      match load_loadable_headers cfg f.source (phdrs.filter (fun h => h.typ == 1)) 0
          ⟨[], [], [], Option.none⟩ with
      | .panics => .panics
      | .error e => .error e
      | .ok k img₁ =>
        match load_tls cfg f.source (phdrs.filter (fun h => h.typ == 7)) k img₁ with
        | .panics => .panics
        | .error e => .error e
        | .ok _ img₂ => .ok img₂

/-! ## KernelSlab (`kernel_slab`) -/

/-- The observable state of a `KernelSlab<V, N>` for the growth claim: how
many segments the chain holds (the head always exists) and which slot
indices have been handed out by `get` (the test writes through every
reference `get` returns, so a slot holds its default value exactly when it
was never indexed). -/
structure SlabState where
  numSegments : Nat
  written : List Nat
deriving DecidableEq, Repr

/-- `KernelSlab::new`: a single (head) segment, all slots default. -/
def KernelSlab.new : SlabState := ⟨1, []⟩

/-- `KernelSlab::get(index)` with segment capacity `N`: walk
`index / N` hops from the head, linking a fresh segment at every missing
hop (so the chain afterwards holds at least `index / N + 1` segments), and
return the slot at `index % N` — recorded here as the slot having been
touched/written. -/
def KernelSlab.get (N : Nat) (s : SlabState) (index : Nat) : SlabState :=
  { numSegments := max s.numSegments (index / N + 1)
    written := index :: s.written }

/-- `KernelSlab::iter`: every slot of every linked segment, in index order
(the iterator stops at the end of the chain and never allocates). -/
def KernelSlab.iterSlots (N : Nat) (s : SlabState) : List Nat :=
  List.range (s.numSegments * N)

/-- The slots `iter` yields that still hold the default value. -/
def KernelSlab.defaultSlots (N : Nat) (s : SlabState) : List Nat :=
  (KernelSlab.iterSlots N s).filter (fun i => decide (i ∉ s.written))

/-- `get` on every index in `0..n` (in order), from a fresh slab. -/
def KernelSlab.getAll (N n : Nat) : SlabState :=
  (List.range n).foldl (KernelSlab.get N) KernelSlab.new

/-! ## Claim C2 -/

/-- C2 (code bug).  The stage-1 bump allocator is specified to hand out, on
its `k`-th call, the `k`-th 4KiB frame address inside the usable regions.
The code's `usable_frames` maps each usable entry to the range
`region.base..region.length` — the upper bound is the `length` *field*, not
`base + length` — so for the firmware-contract-satisfying map with the single
usable entry `{ base = 0x1000, length = 0x1000 }` (one usable frame, at
0x1000) it enumerates no frame at all, and the first `allocate_frame` call
returns `None` where the specification requires `Some 0x1000`. -/
theorem bump_allocator_skips_usable_frames :
    specUsableFrames [⟨4096, 4096, true⟩] = [4096] ∧
      PhysicalBumpAllocator.usable_frames ⟨[⟨4096, 4096, true⟩], 0⟩ = [] ∧
      (PhysicalBumpAllocator.allocate_frame ⟨[⟨4096, 4096, true⟩], 0⟩).1 = Option.none := by
  refine ⟨?_, ?_, ?_⟩ <;> decide

/-! ## Claim C3 -/

/-- C3 (code bug).  `ElfFile::try_parse` is not total: it computes
`&source[..size_of::<ElfHeader>()]` before any validation, so a buffer
shorter than the 64-byte ELF header makes it panic with a slice-bounds
failure instead of returning the header-parse error the specification
promises.  Shown on the empty buffer and on a 63-byte buffer. -/
theorem try_parse_panics_on_short_buffer :
    ElfFile.try_parse [] = ParseResult.panics ∧
      ElfFile.try_parse (List.replicate 63 0) = ParseResult.panics := by
  exact ⟨by decide, by decide⟩

/-! ## Claim C8 -/

/-- C8 counterexample.  With segment capacity `N = 2`, `get` on every index
in `0..35` links exactly 18 segments (36 slots), of which exactly **one** —
not five — still holds the default value.  (The "5 empty slots" figure
belongs to the repository's `test_iter`, which uses `N = 20`.) -/
theorem slab_growth_counterexample :
    (KernelSlab.getAll 2 35).numSegments = 18 ∧
      (KernelSlab.defaultSlots 2 (KernelSlab.getAll 2 35)).length = 1 ∧
      ¬(KernelSlab.defaultSlots 2 (KernelSlab.getAll 2 35)).length = 5 := by
  refine ⟨?_, ?_, ?_⟩ <;> decide

/-- C8 amended.  With segment capacity `N = 2`, after `get` on every index in
`0..35` the chain holds exactly 18 linked segments, and iterating finds
exactly one slot still holding the default value: the tail slot 35.  (For
comparison, the `N = 20` slab of the repository's own test yields 2 segments
and 5 default slots.) -/
theorem slab_growth_amended :
    (KernelSlab.getAll 2 35).numSegments = 18 ∧
      KernelSlab.defaultSlots 2 (KernelSlab.getAll 2 35) = [35] ∧
      (KernelSlab.getAll 20 35).numSegments = 2 ∧
      (KernelSlab.defaultSlots 20 (KernelSlab.getAll 20 35)).length = 5 := by
  refine ⟨?_, ?_, ?_, ?_⟩ <;> decide

/-! ## Claim C4 -/

/-- Little-endian encoding of `v` in `n` bytes (test-input builder). -/
def leBytes (n v : Nat) : List Nat :=
  (List.range n).map (fun i => v / 256 ^ i % 256)

/-- A valid 64-byte ELF header (little-endian, version 1, System V) with the
given type, program-header offset and count. -/
def elfHeaderBytes (typ phoff phnum : Nat) : List Nat :=
  [0x7F, 0x45, 0x4C, 0x46, 2, 1, 1, 0, 0, 0, 0, 0, 0, 0, 0, 0] ++
    leBytes 2 typ ++ leBytes 2 0 ++ leBytes 4 1 ++ leBytes 8 0 ++ leBytes 8 phoff ++
    leBytes 8 0 ++ leBytes 4 0 ++ leBytes 2 64 ++ leBytes 2 56 ++ leBytes 2 phnum ++
    leBytes 2 64 ++ leBytes 2 0 ++ leBytes 2 0

/-- A 56-byte program header record. -/
def programHeaderBytes (typ flags offset vaddr filesz memsz align : Nat) : List Nat :=
  leBytes 2 typ ++ leBytes 2 0 ++ leBytes 4 flags ++ leBytes 8 offset ++ leBytes 8 vaddr ++
    leBytes 8 0 ++ leBytes 8 filesz ++ leBytes 8 memsz ++ leBytes 8 align

/-- A memory capability on which every allocation and permission transition
succeeds. -/
def loaderCfgAll : MemCfg := ⟨fun _ => true, fun _ => true, fun _ => true⟩

/-- ET_EXEC file with one LOAD header flagged `R|W|X` whose `align` is 0
(so `Layout::from_size_align` fails before the W^X assertion is reached). -/
def c4Source : List Nat := elfHeaderBytes 2 64 1 ++ programHeaderBytes 1 7 0 0 0 0 0

/-- The parse of `c4Source`. -/
def c4File : ElfFile := ⟨c4Source, decodeElfHeader c4Source ElfType.Exec⟩

set_option maxRecDepth 8192 in
/-- C4 counterexample.  A parsed ET_EXEC `ElfFile` whose only LOAD header
(so every "preceding" LOAD header is vacuously allocatable) is flagged both
executable and writable, yet `ElfLoader::load` returns the recoverable
`InvalidSizeOrAlign` error — not a panic — because the header's
`(memsz, align) = (0, 0)` layout is rejected before the W^X assertion
runs. -/
theorem wx_load_not_always_panics :
    ElfFile.try_parse c4Source = ParseResult.ok c4File ∧
      c4File.program_headers = some [⟨1, 7, 0, 0, 0, 0, 0, 0⟩] ∧
      (7 : Nat) &&& 1 ≠ 0 ∧ (7 : Nat) &&& 2 ≠ 0 ∧
      ElfLoader.load loaderCfgAll c4File = .error .InvalidSizeOrAlign ∧
      ElfLoader.load loaderCfgAll c4File ≠ .panics := by
  refine ⟨?_, ?_, ?_, ?_, ?_, ?_⟩ <;> decide

/-- The conditions under which processing one LOAD header at allocate-call
counter `k` cannot exit `load_loadable_headers` with a recoverable error
(it either succeeds or panics). -/
def StepNoError (cfg : MemCfg) (k : Nat) (h : ProgramHeader) : Prop :=
  canonical h.vaddr ∧ layoutValid h.memsz h.align ∧ cfg.allocOk k = true ∧
    (h.flags &&& 1 ≠ 0 → cfg.makeExecOk k = true) ∧
    (h.flags &&& 1 = 0 → h.flags &&& 2 = 0 → cfg.makeRoOk k = true)

theorem load_loadable_wx_panics (cfg : MemCfg) (source : List Nat)
    (post : List ProgramHeader) (w : ProgramHeader)
    (hwx : w.flags &&& 1 ≠ 0 ∧ w.flags &&& 2 ≠ 0) :
    ∀ pre k img, (∀ i h, pre.get? i = some h → StepNoError cfg (k + i) h) →
      canonical w.vaddr → layoutValid w.memsz w.align →
      cfg.allocOk (k + pre.length) = true →
      load_loadable_headers cfg source (pre ++ w :: post) k img = .panics := by
  intro pre
  induction pre with
  | nil =>
    intro k img hpre hc hl ha
    show load_loadable_headers cfg source (w :: post) k img = .panics
    unfold load_loadable_headers
    by_cases h1 : source.length < w.offset + w.filesz
    · rw [if_pos h1]
    · rw [if_neg h1, if_neg (not_not_intro hc), if_neg (not_not_intro hl),
        if_neg (by simp only [List.length_nil, Nat.add_zero] at ha; simp [ha])]
      by_cases h5 : w.memsz < w.filesz
      · rw [if_pos h5]
      · rw [if_neg h5, if_pos hwx]
  | cons h rest ih =>
    intro k img hpre hc hl ha
    have hh : StepNoError cfg k h := by
      have := hpre 0 h rfl
      simpa using this
    show load_loadable_headers cfg source (h :: (rest ++ w :: post)) k img = .panics
    unfold load_loadable_headers
    by_cases h1 : source.length < h.offset + h.filesz
    · rw [if_pos h1]
    · rw [if_neg h1, if_neg (not_not_intro hh.1), if_neg (not_not_intro hh.2.1),
        if_neg (by simp [hh.2.2.1])]
      have hrest : ∀ i h', rest.get? i = some h' → StepNoError cfg (k + 1 + i) h' := by
        intro i h' hi
        have := hpre (i + 1) h' (by simpa using hi)
        simpa [Nat.add_assoc, Nat.add_comm 1 i] using this
      have ha' : cfg.allocOk (k + 1 + rest.length) = true := by
        have : k + 1 + rest.length = k + (rest.length + 1) := by omega
        rw [this]
        simpa using ha
      by_cases h5 : h.memsz < h.filesz
      · rw [if_pos h5]
      · rw [if_neg h5]
        by_cases h6 : h.flags &&& 1 ≠ 0 ∧ h.flags &&& 2 ≠ 0
        · rw [if_pos h6]
        · rw [if_neg h6]
          by_cases h7 : h.flags &&& 1 ≠ 0
          · rw [if_pos h7, if_pos (hh.2.2.2.1 h7)]
            exact ih (k + 1) _ hrest hc hl ha'
          · rw [if_neg h7]
            by_cases h8 : h.flags &&& 2 ≠ 0
            · rw [if_pos h8]
              exact ih (k + 1) _ hrest hc hl ha'
            · rw [if_neg h8,
                if_pos (hh.2.2.2.2 (by omega) (by omega))]
              exact ih (k + 1) _ hrest hc hl ha'

/-- C4 amended.  For every parsed ET_EXEC `ElfFile` whose LOAD headers split
as `pre ++ [w] ++ post` with `w` flagged both executable and writable,
`ElfLoader::load` panics (asserts) rather than returning a `Result` error —
provided no header up to and including `w` takes a recoverable-error exit
before the W^X assertion: each header of `pre` has a canonical virtual
address, a valid `(memsz, align)` layout and successful allocation and
permission transition, and `w` itself has a canonical virtual address, a
valid layout and a successful allocation.  (The unamended claim is refuted by
`wx_load_not_always_panics`: a W+X header whose own layout is invalid is
reported as `InvalidSizeOrAlign`, not a panic.) -/
theorem wx_load_header_panics (cfg : MemCfg) (f : ElfFile)
    (phdrs pre post : List ProgramHeader) (w : ProgramHeader)
    (_hparse : ElfFile.try_parse f.source = ParseResult.ok f)
    (hexec : f.header.typ = ElfType.Exec)
    (hph : f.program_headers = some phdrs)
    (hsplit : phdrs.filter (fun h => h.typ == 1) = pre ++ w :: post)
    (hwx : w.flags &&& 1 ≠ 0 ∧ w.flags &&& 2 ≠ 0)
    (hpre : ∀ i h, pre.get? i = some h → StepNoError cfg i h)
    (hwc : canonical w.vaddr) (hwl : layoutValid w.memsz w.align)
    (hwa : cfg.allocOk pre.length = true) :
    ElfLoader.load cfg f = .panics := by
  unfold ElfLoader.load
  rw [if_neg (fun hcon => hcon hexec), hph]
  dsimp only
  rw [hsplit]
  rw [load_loadable_wx_panics cfg f.source post w hwx pre 0 _
    (by simpa using hpre) hwc hwl (by simpa using hwa)]

/-- ET_EXEC file with one LOAD header flagged `R|W|X`, `align = 0x1000`,
`filesz = memsz = 0`: every pre-assertion step succeeds, so the W^X
assertion is reached. -/
def c4bSource : List Nat := elfHeaderBytes 2 64 1 ++ programHeaderBytes 1 7 0 0 0 0 4096

/-- The parse of `c4bSource`. -/
def c4bFile : ElfFile := ⟨c4bSource, decodeElfHeader c4bSource ElfType.Exec⟩

/-- Witness for the amended C4 at a concrete W+X executable. -/
theorem wx_load_header_panics_witness :
    ElfLoader.load loaderCfgAll c4bFile = .panics :=
  wx_load_header_panics loaderCfgAll c4bFile [⟨1, 7, 0, 0, 0, 0, 0, 4096⟩] [] []
    ⟨1, 7, 0, 0, 0, 0, 0, 4096⟩
    (by decide) (by decide) (by decide) (by decide) (by decide)
    (by intro i h hc; simp at hc) (by decide) (by decide) (by decide)

/-! ## Claim C7 -/

/-- The LOAD stage never touches `tls_allocation`. -/
theorem load_loadable_tls_none (cfg : MemCfg) (source : List Nat) :
    ∀ hdrs k img k' img',
      load_loadable_headers cfg source hdrs k img = .ok k' img' →
      img'.tls_allocation = img.tls_allocation := by
  intro hdrs
  induction hdrs with
  | nil =>
    intro k img k' img' h
    cases h
    rfl
  | cons hd rest ih =>
    intro k img k' img' h
    unfold load_loadable_headers at h
    repeat' split at h
    all_goals first
      | cases h
      | exact (ih _ _ _ _ h).trans rfl

/-- ET_EXEC file with zero TLS headers but one LOAD header whose `align` is
0, so the LOAD stage errors out. -/
def c7Source : List Nat := elfHeaderBytes 2 64 1 ++ programHeaderBytes 1 4 0 0 0 0 0

/-- The parse of `c7Source`. -/
def c7File : ElfFile := ⟨c7Source, decodeElfHeader c7Source ElfType.Exec⟩

set_option maxRecDepth 8192 in
/-- C7 counterexample.  A parsed ET_EXEC `ElfFile` containing exactly zero
TLS program headers for which `ElfLoader::load` nevertheless does **not**
succeed: its LOAD header has an invalid layout, so `load` returns
`InvalidSizeOrAlign`.  The claim's "if exactly zero TLS headers, load
succeeds" is therefore false as stated. -/
theorem tls_zero_not_always_success :
    ElfFile.try_parse c7Source = ParseResult.ok c7File ∧
      c7File.program_headers = some [⟨1, 4, 0, 0, 0, 0, 0, 0⟩] ∧
      ([(⟨1, 4, 0, 0, 0, 0, 0, 0⟩ : ProgramHeader)].filter (fun h => h.typ == 7)).length = 0 ∧
      ElfLoader.load loaderCfgAll c7File = .error .InvalidSizeOrAlign := by
  refine ⟨?_, ?_, ?_, ?_⟩ <;> decide

/-- C7 amended.  For every parsed ET_EXEC `ElfFile` whose LOAD stage
completes without error or panic: (a) two or more TLS program headers make
`ElfLoader::load` return the distinct `TooManyTlsHeaders` error (not a
panic); (b) exactly zero TLS headers make `load` succeed with
`tls_allocation` absent; (c) exactly one TLS header — whose data is in
range, whose layout is valid and whose allocation and read-only transition
succeed, with `filesz ≤ memsz` — makes `load` succeed with the image
carrying a single read-only TLS allocation.  (The unamended claim is refuted
by `tls_zero_not_always_success`: a LOAD-stage failure pre-empts all three
outcomes.) -/
theorem tls_header_cases (cfg : MemCfg) (f : ElfFile) (phdrs : List ProgramHeader)
    (k : Nat) (img₁ : ElfImage)
    (_hparse : ElfFile.try_parse f.source = ParseResult.ok f)
    (hexec : f.header.typ = ElfType.Exec)
    (hph : f.program_headers = some phdrs)
    (hload : load_loadable_headers cfg f.source (phdrs.filter (fun h => h.typ == 1)) 0
      ⟨[], [], [], Option.none⟩ = .ok k img₁) :
    (2 ≤ (phdrs.filter (fun h => h.typ == 7)).length →
        ElfLoader.load cfg f = .error .TooManyTlsHeaders) ∧
      ((phdrs.filter (fun h => h.typ == 7)).length = 0 →
        ElfLoader.load cfg f = .ok img₁ ∧ img₁.tls_allocation = Option.none) ∧
      (∀ t, phdrs.filter (fun h => h.typ == 7) = [t] →
        t.offset + t.filesz ≤ f.source.length → layoutValid t.memsz t.align →
        cfg.allocOk k = true → t.filesz ≤ t.memsz → cfg.makeRoOk k = true →
        ElfLoader.load cfg f =
          .ok { img₁ with tls_allocation := some ⟨Option.none, segmentBytes f.source t⟩ }) := by
  have htls := load_loadable_tls_none cfg f.source _ _ _ _ _ hload
  unfold ElfLoader.load
  rw [if_neg (fun hcon => hcon hexec), hph]
  dsimp only
  rw [hload]
  dsimp only
  refine ⟨?_, ?_, ?_⟩
  · intro h2
    rcases hf : phdrs.filter (fun h => h.typ == 7) with _ | ⟨a, _ | ⟨b, rest⟩⟩
    · rw [hf] at h2; simp at h2
    · rw [hf] at h2; simp at h2
    · rw [hf]
      rfl
  · intro h0
    have hf : phdrs.filter (fun h => h.typ == 7) = [] := List.length_eq_zero.mp h0
    rw [hf]
    exact ⟨rfl, htls⟩
  · intro t hf hin hl ha hfm hro
    rw [hf]
    have hstep : load_tls cfg f.source [t] k img₁ =
        .ok (k + 1) { img₁ with tls_allocation := some ⟨Option.none, segmentBytes f.source t⟩ } := by
      unfold load_tls
      dsimp only
      rw [if_neg (by omega), if_neg (not_not_intro hl), if_neg (by simp [ha]),
        if_neg (by omega), if_pos hro]
    rw [hstep]

/-- ET_EXEC file with exactly one TLS header (`filesz = 2`, `memsz = 4`,
data bytes `0x11 0x22` at offset 120) and no LOAD headers. -/
def c7bSource : List Nat :=
  elfHeaderBytes 2 64 1 ++ programHeaderBytes 7 4 120 0 2 4 4096 ++ [0x11, 0x22]

/-- The parse of `c7bSource`. -/
def c7bFile : ElfFile := ⟨c7bSource, decodeElfHeader c7bSource ElfType.Exec⟩

set_option maxRecDepth 8192 in
/-- Witness for the amended C7 at a concrete one-TLS-header executable. -/
theorem tls_header_cases_witness :
    (2 ≤ ((⟨7, 4, 120, 0, 0, 2, 4, 4096⟩ :: ([] : List ProgramHeader)).filter
          (fun h => h.typ == 7)).length →
        ElfLoader.load loaderCfgAll c7bFile = .error .TooManyTlsHeaders) ∧
      ((((⟨7, 4, 120, 0, 0, 2, 4, 4096⟩ : ProgramHeader) :: []).filter
          (fun h => h.typ == 7)).length = 0 →
        ElfLoader.load loaderCfgAll c7bFile = .ok ⟨[], [], [], Option.none⟩ ∧
          (⟨[], [], [], Option.none⟩ : ElfImage).tls_allocation = Option.none) ∧
      (∀ t, ((⟨7, 4, 120, 0, 0, 2, 4, 4096⟩ : ProgramHeader) :: []).filter
            (fun h => h.typ == 7) = [t] →
        t.offset + t.filesz ≤ c7bFile.source.length → layoutValid t.memsz t.align →
        loaderCfgAll.allocOk 0 = true → t.filesz ≤ t.memsz → loaderCfgAll.makeRoOk 0 = true →
        ElfLoader.load loaderCfgAll c7bFile =
          .ok { (⟨[], [], [], Option.none⟩ : ElfImage) with
                  tls_allocation := some ⟨Option.none, segmentBytes c7bFile.source t⟩ }) :=
  tls_header_cases loaderCfgAll c7bFile [⟨7, 4, 120, 0, 0, 2, 4, 4096⟩] 0
    ⟨[], [], [], Option.none⟩ (by decide) (by decide) (by decide) (by decide)

/-! ## Claim C6 -/

/-- The three permission-class allocation lists of an image, flattened. -/
def allAllocs (img : ElfImage) : List Allocation :=
  img.executable_allocations ++ img.readonly_allocations ++ img.writable_allocations

/-- Allocation `a` is the materialization of some header in `hdrs`. -/
def AllocMatches (source : List Nat) (hdrs : List ProgramHeader) (a : Allocation) : Prop :=
  ∃ h, h ∈ hdrs ∧ h.offset + h.filesz ≤ source.length ∧ h.filesz ≤ h.memsz ∧
    a.bytes = segmentBytes source h

theorem AllocMatches_cons {source : List Nat} {hd : ProgramHeader}
    {hdrs : List ProgramHeader} {a : Allocation} (h : AllocMatches source hdrs a) :
    AllocMatches source (hd :: hdrs) a := by
  obtain ⟨h', hmem, h1, h2, h3⟩ := h
  exact ⟨h', List.mem_cons_of_mem _ hmem, h1, h2, h3⟩

/-- Every allocation a successful LOAD stage adds to the image is the exact
materialization of one of its headers. -/
theorem load_loadable_allocs (cfg : MemCfg) (source : List Nat) :
    ∀ hdrs k img k' img',
      load_loadable_headers cfg source hdrs k img = .ok k' img' →
      ∀ a, a ∈ allAllocs img' → a ∈ allAllocs img ∨ AllocMatches source hdrs a := by
  intro hdrs
  induction hdrs with
  | nil =>
    intro k img k' img' h a ha
    cases h
    exact Or.inl ha
  | cons hd rest ih =>
    intro k img k' img' h a ha
    unfold load_loadable_headers at h
    by_cases h1 : source.length < hd.offset + hd.filesz
    · rw [if_pos h1] at h; cases h
    · rw [if_neg h1] at h
      by_cases h2 : ¬ canonical hd.vaddr
      · rw [if_pos h2] at h; cases h
      · rw [if_neg h2] at h
        by_cases h3 : ¬ layoutValid hd.memsz hd.align
        · rw [if_pos h3] at h; cases h
        · rw [if_neg h3] at h
          by_cases h4 : cfg.allocOk k = false
          · rw [if_pos h4] at h; cases h
          · rw [if_neg h4] at h
            by_cases h5 : hd.memsz < hd.filesz
            · rw [if_pos h5] at h; cases h
            · rw [if_neg h5] at h
              have hmatch : AllocMatches source (hd :: rest)
                  ⟨some hd.vaddr, segmentBytes source hd⟩ :=
                ⟨hd, List.mem_cons_self _ _, by omega, by omega, rfl⟩
              by_cases h6 : hd.flags &&& 1 ≠ 0 ∧ hd.flags &&& 2 ≠ 0
              · rw [if_pos h6] at h; cases h
              · rw [if_neg h6] at h
                by_cases h7 : hd.flags &&& 1 ≠ 0
                · rw [if_pos h7] at h
                  by_cases h8 : cfg.makeExecOk k = true
                  · rw [if_pos h8] at h
                    rcases ih _ _ _ _ h a ha with hmem | hm
                    · by_cases hx : a = (⟨some hd.vaddr, segmentBytes source hd⟩ : Allocation)
                      · subst hx
                        exact Or.inr hmatch
                      · left
                        simp only [allAllocs, List.mem_append, List.mem_singleton] at hmem ⊢
                        tauto
                    · exact Or.inr (AllocMatches_cons hm)
                  · rw [if_neg h8] at h; cases h
                · rw [if_neg h7] at h
                  by_cases h8 : hd.flags &&& 2 ≠ 0
                  · rw [if_pos h8] at h
                    rcases ih _ _ _ _ h a ha with hmem | hm
                    · by_cases hx : a = (⟨some hd.vaddr, segmentBytes source hd⟩ : Allocation)
                      · subst hx
                        exact Or.inr hmatch
                      · left
                        simp only [allAllocs, List.mem_append, List.mem_singleton] at hmem ⊢
                        tauto
                    · exact Or.inr (AllocMatches_cons hm)
                  · rw [if_neg h8] at h
                    by_cases h9 : cfg.makeRoOk k = true
                    · rw [if_pos h9] at h
                      rcases ih _ _ _ _ h a ha with hmem | hm
                      · by_cases hx : a = (⟨some hd.vaddr, segmentBytes source hd⟩ : Allocation)
                        · subst hx
                          exact Or.inr hmatch
                        · left
                          simp only [allAllocs, List.mem_append, List.mem_singleton] at hmem ⊢
                          tauto
                      · exact Or.inr (AllocMatches_cons hm)
                    · rw [if_neg h9] at h; cases h

/-- A successful TLS stage leaves the three permission lists unchanged and
either leaves `tls_allocation` unchanged or sets it to the exact
materialization of a TLS header. -/
theorem load_tls_allocs (cfg : MemCfg) (source : List Nat) :
    ∀ tlsHdrs k img k' img',
      load_tls cfg source tlsHdrs k img = .ok k' img' →
      allAllocs img' = allAllocs img ∧
        (img'.tls_allocation = img.tls_allocation ∨
          ∃ t, t ∈ tlsHdrs ∧ t.offset + t.filesz ≤ source.length ∧ t.filesz ≤ t.memsz ∧
            img'.tls_allocation = some ⟨Option.none, segmentBytes source t⟩) := by
  intro tlsHdrs k img k' img' h
  match tlsHdrs with
  | [] =>
    cases h
    exact ⟨rfl, Or.inl rfl⟩
  | [t] =>
    unfold load_tls at h
    dsimp only at h
    by_cases h1 : source.length < t.offset + t.filesz
    · rw [if_pos h1] at h; cases h
    · rw [if_neg h1] at h
      by_cases h2 : ¬ layoutValid t.memsz t.align
      · rw [if_pos h2] at h; cases h
      · rw [if_neg h2] at h
        by_cases h3 : cfg.allocOk k = false
        · rw [if_pos h3] at h; cases h
        · rw [if_neg h3] at h
          by_cases h4 : t.memsz < t.filesz
          · rw [if_pos h4] at h; cases h
          · rw [if_neg h4] at h
            by_cases h5 : cfg.makeRoOk k = true
            · rw [if_pos h5] at h
              cases h
              exact ⟨rfl, Or.inr ⟨t, List.mem_singleton_self _, by omega, by omega, rfl⟩⟩
            · rw [if_neg h5] at h; cases h
  | a :: b :: rest => cases h

/-- C6.  For every loadable (LOAD or TLS) program header successfully
materialized by `ElfLoader::load`, the produced allocation's first `filesz`
bytes equal exactly the segment's on-disk content
(`source[offset .. offset + filesz]`) and the remaining `memsz - filesz`
bytes are all zero. -/
theorem loaded_segment_bytes (cfg : MemCfg) (f : ElfFile) (img : ElfImage)
    (phdrs : List ProgramHeader)
    (hph : f.program_headers = some phdrs)
    (hload : ElfLoader.load cfg f = .ok img) :
    (∀ a, a ∈ img.executable_allocations ++ img.readonly_allocations ++
        img.writable_allocations →
      ∃ h, h ∈ phdrs ∧ h.typ = 1 ∧ a.bytes.length = h.memsz ∧
        a.bytes.take h.filesz = (f.source.drop h.offset).take h.filesz ∧
        a.bytes.drop h.filesz = List.replicate (h.memsz - h.filesz) 0) ∧
      (∀ a, img.tls_allocation = some a →
        ∃ h, h ∈ phdrs ∧ h.typ = 7 ∧ a.bytes.length = h.memsz ∧
          a.bytes.take h.filesz = (f.source.drop h.offset).take h.filesz ∧
          a.bytes.drop h.filesz = List.replicate (h.memsz - h.filesz) 0) := by
  have hbytes : ∀ h : ProgramHeader, h.offset + h.filesz ≤ f.source.length →
      h.filesz ≤ h.memsz →
      (segmentBytes f.source h).length = h.memsz ∧
        (segmentBytes f.source h).take h.filesz = (f.source.drop h.offset).take h.filesz ∧
        (segmentBytes f.source h).drop h.filesz = List.replicate (h.memsz - h.filesz) 0 := by
    intro h hin hfm
    unfold segmentBytes
    set pdata := (f.source.drop h.offset).take h.filesz with hpd
    have hplen : pdata.length = h.filesz := by
      rw [hpd, List.length_take, List.length_drop]
      omega
    refine ⟨?_, ?_, ?_⟩
    · rw [List.length_append, hplen, List.length_replicate]
      omega
    · rw [← hplen, List.take_left]
    · rw [← hplen, List.drop_left]
  unfold ElfLoader.load at hload
  by_cases hexec : f.header.typ ≠ ElfType.Exec
  · rw [if_pos hexec] at hload; cases hload
  · rw [if_neg hexec, hph] at hload
    dsimp only at hload
    cases hLL : load_loadable_headers cfg f.source (phdrs.filter (fun h => h.typ == 1)) 0
        ⟨[], [], [], Option.none⟩ with
    | panics => rw [hLL] at hload; cases hload
    | error e => rw [hLL] at hload; cases hload
    | ok k img₁ =>
      rw [hLL] at hload
      dsimp only at hload
      cases hT : load_tls cfg f.source (phdrs.filter (fun h => h.typ == 7)) k img₁ with
      | panics => rw [hT] at hload; cases hload
      | error e => rw [hT] at hload; cases hload
      | ok k₂ img₂ =>
        rw [hT] at hload
        cases hload
        obtain ⟨hsame, htls⟩ := load_tls_allocs cfg f.source _ _ _ _ _ hT
        constructor
        · intro a ha
          have ha₁ : a ∈ allAllocs img₁ := by
            rw [← hsame]
            simpa [allAllocs] using ha
          rcases load_loadable_allocs cfg f.source _ _ _ _ _ hLL a ha₁ with hmem | hm
          · simp [allAllocs] at hmem
          · obtain ⟨h, hmem, hin, hfm, hb⟩ := hm
            obtain ⟨hmem', htyp⟩ := List.mem_filter.mp hmem
            obtain ⟨hl1, hl2, hl3⟩ := hbytes h hin hfm
            exact ⟨h, hmem', by simpa using htyp, by rw [hb]; exact hl1,
              by rw [hb]; exact hl2, by rw [hb]; exact hl3⟩
        · intro a ha
          rcases htls with heq | ⟨t, hmem, hin, hfm, hset⟩
          · rw [heq] at ha
            have : img₁.tls_allocation = Option.none :=
              load_loadable_tls_none cfg f.source _ _ _ _ _ hLL
            rw [this] at ha
            cases ha
          · rw [hset] at ha
            cases ha
            obtain ⟨hmem', htyp⟩ := List.mem_filter.mp hmem
            obtain ⟨hl1, hl2, hl3⟩ := hbytes t hin hfm
            exact ⟨t, hmem', by simpa using htyp, hl1, hl2, hl3⟩

/-- ET_EXEC file with one `R|X` LOAD header (`filesz = 2`, `memsz = 4`, data
bytes `0xAB 0xCD` at offset 120). -/
def c6Source : List Nat :=
  elfHeaderBytes 2 64 1 ++ programHeaderBytes 1 5 120 4096 2 4 4096 ++ [0xAB, 0xCD]

/-- The parse of `c6Source`. -/
def c6File : ElfFile := ⟨c6Source, decodeElfHeader c6Source ElfType.Exec⟩

/-- The image `ElfLoader::load` produces for `c6File`. -/
def c6Image : ElfImage :=
  ⟨[⟨some 4096, [0xAB, 0xCD, 0, 0]⟩], [], [], Option.none⟩

set_option maxRecDepth 8192 in
/-- Witness for C6 at a concrete executable: the loaded bytes are the two
on-disk bytes followed by two zeros. -/
theorem loaded_segment_bytes_witness :
    (∀ a, a ∈ c6Image.executable_allocations ++ c6Image.readonly_allocations ++
        c6Image.writable_allocations →
      ∃ h, h ∈ [(⟨1, 5, 120, 4096, 0, 2, 4, 4096⟩ : ProgramHeader)] ∧ h.typ = 1 ∧
        a.bytes.length = h.memsz ∧
        a.bytes.take h.filesz = (c6File.source.drop h.offset).take h.filesz ∧
        a.bytes.drop h.filesz = List.replicate (h.memsz - h.filesz) 0) ∧
      (∀ a, c6Image.tls_allocation = some a →
        ∃ h, h ∈ [(⟨1, 5, 120, 4096, 0, 2, 4, 4096⟩ : ProgramHeader)] ∧ h.typ = 7 ∧
          a.bytes.length = h.memsz ∧
          a.bytes.take h.filesz = (c6File.source.drop h.offset).take h.filesz ∧
          a.bytes.drop h.filesz = List.replicate (h.memsz - h.filesz) 0) :=
  loaded_segment_bytes loaderCfgAll c6File c6Image
    [⟨1, 5, 120, 4096, 0, 2, 4, 4096⟩] (by decide) (by decide)

end Muffin
